import Mathlib

/-!
# wish: a small Unix shell (`src/wish.cpp`)

A shallow embedding of the command-line parser (`addToken`, `parseParallel`,
`parseRedir`), of the built-in `set_paths`, of the orchestrator `process_command`
and of the spawned process (`redir`, `child`), followed by theorems about them.

Modelling conventions.

* A `std::string` is a `String`; a `char*` token is the `String` of the characters
  that precede its terminating NUL, so `strcmp(a, b) == 0` is `a = b`.
* System calls made by the orchestrating process are recorded, in program order,
  in a trace of `Event`s.  Their results come from a `Sys` value, which may answer
  differently depending on everything that happened before.
* `fork()` is seen from the orchestrating process: it yields the pid of the new
  process, or fails.  What the new process receives (its argument vector, the
  redirection fields and the search path it inherits) is stored in the event; the
  new process runs `child` on them, with a trace of `ChildEvent`s of its own.
-/

namespace Wish

/-! ## Constants (lines 11-18) -/

def BUILTIN_PATH : String := "path"
def BUILTIN_CD : String := "cd"
def EXIT : String := "exit"
def REDIR : String := ">"
def PARALLEL : String := "&"
def PATH : String := "/bin"

/-- The character `*REDIR`. -/
def REDIR_CHAR : Char := '>'
/-- The character `*PARALLEL`. -/
def PARALLEL_CHAR : Char := '&'
/-- The terminator of a C string. -/
def NUL : Char := Char.ofNat 0

/-! ## Data model (lines 20-24) -/

/-- The struct `Command`: the tokens, the redirection file and the redirection flag. -/
structure Command where
  tokens : List String
  redirFile : String
  hasRedirection : Bool
deriving DecidableEq

/-- The value `Command()`: no tokens, `redirFile = ""`, `hasRedirection = false`. -/
def Command.fresh : Command := ⟨[], "", false⟩

/-- What the orchestrating process does that is visible outside it. -/
inductive Event where
  /-- `error()`: the diagnostic is written to standard error. -/
  | error
  /-- `paths = set_paths(...)`: the search path is replaced by the given list. -/
  | setPaths (paths : List String)
  /-- `chdir(dir)`; `ok` tells whether it returned 0. -/
  | chdir (dir : String) (ok : Bool)
  /-- `fork()`: the new process gets `argv` (the tokens followed by the null
  terminator, `none`), the redirection fields and the current search path;
  `result` is the child's pid, or `none` when `fork` failed. -/
  | fork (argv : List (Option String)) (redirFile : String) (hasRedirection : Bool)
      (paths : List String) (result : Option Nat)
  /-- `waitpid(pid, NULL, 0)`. -/
  | waitpid (pid : Nat)
deriving DecidableEq

/-- The operating system as the orchestrating process sees it: the result of each
call may depend on the whole trace so far. -/
structure Sys where
  fork : List Event → Option Nat
  chdir : List Event → String → Bool

/-! ## Tokenizer (lines 96-133) -/

/-- The C string held by a `std::string`: `strcpy` copies up to the first NUL. -/
def c_str (s : String) : String := ⟨s.data.takeWhile (fun c => c != NUL)⟩

/-- `addToken` (lines 96-102): a non-empty `token` is copied with `strcpy` and
appended to `tokens`. -/
def addToken (tokens : List String) (token : String) : List String :=
  if token ≠ "" then tokens ++ [c_str token] else tokens

/-- The local variables of `parseParallel`. -/
structure ParseState where
  commands : List Command
  currCommand : Command
  temp : String
deriving DecidableEq

/-- The statement `addToken(currCommand.tokens, temp); temp.clear();`. -/
def flushTemp (st : ParseState) : ParseState :=
  { st with
    currCommand := { st.currCommand with tokens := addToken st.currCommand.tokens st.temp }
    temp := "" }

/-- One iteration of the loop of `parseParallel` (lines 109-127). -/
def parseStep (st : ParseState) (c : Char) : ParseState :=
  if c = ' ' then
    flushTemp st
  else if c = REDIR_CHAR then
    let st1 := flushTemp st
    { st1 with currCommand := { st1.currCommand with
        tokens := addToken st1.currCommand.tokens REDIR } }
  else if c = PARALLEL_CHAR then
    let st1 := flushTemp st
    if st1.currCommand.tokens ≠ [] then
      { st1 with commands := st1.commands ++ [st1.currCommand], currCommand := Command.fresh }
    else st1
  else
    { st with temp := st.temp.push c }

/-- The tail of `parseParallel` (lines 128-132). -/
def parseFinish (st : ParseState) : List Command :=
  let st1 := flushTemp st
  if st1.currCommand.tokens ≠ [] then st1.commands ++ [st1.currCommand] else st1.commands

/-- The state in which `parseParallel` enters its loop. -/
def ParseState.init : ParseState := ⟨[], Command.fresh, ""⟩

/-- `parseParallel` (lines 104-133). -/
def parseParallel (input : String) : List Command :=
  parseFinish (input.data.foldl parseStep ParseState.init)

/-- The command under construction never carries redirection fields. -/
def ParseState.plain (st : ParseState) : Prop :=
  st.currCommand.redirFile = "" ∧ st.currCommand.hasRedirection = false

/-- The shape of a token: no space, no separator, the operator only as the token
`>`; under the proviso `nz` the token is also non-empty. -/
def tokenOK (nz : Prop) (tok : String) : Prop :=
  ' ' ∉ tok.data ∧ '&' ∉ tok.data ∧ ('>' ∈ tok.data → tok = REDIR) ∧ (nz → tok ≠ "")

/-- The invariant of the loop of `parseParallel`: finished commands are non-empty,
all tokens are well shaped, and the buffer holds no space, separator or operator
(and no NUL under the proviso `nz`). -/
def ParseState.wf (nz : Prop) (st : ParseState) : Prop :=
  (∀ cmd ∈ st.commands, cmd.tokens ≠ [] ∧ ∀ tok ∈ cmd.tokens, tokenOK nz tok)
  ∧ (∀ tok ∈ st.currCommand.tokens, tokenOK nz tok)
  ∧ ' ' ∉ st.temp.data ∧ '&' ∉ st.temp.data ∧ '>' ∉ st.temp.data
  ∧ (nz → NUL ∉ st.temp.data)

/-- The tokenizer has seen something other than spaces and separators: a command is
finished, or a token is stored, or the buffer is not empty. -/
def ParseState.started (st : ParseState) : Prop :=
  st.commands ≠ [] ∨ st.currCommand.tokens ≠ [] ∨ st.temp ≠ ""

/-! ## Built-in `path` (lines 68-74) -/

/-- `set_paths` (lines 68-74): the loop `for (i = 1; i < tokens.size(); ++i)`
pushes `tokens.at(i)`. -/
def set_paths (tokens : List String) : List String :=
  (List.range' 1 (tokens.length - 1)).foldl (fun paths i => paths ++ [tokens.getD i ""]) []

/-! ## Redirection extraction (lines 76-93) -/

/-- The loop of `parseRedir`: `rest` holds `command.tokens[i], command.tokens[i+1], ...`. -/
def parseRedirLoop (command : Command) (tokensEnd : Int) :
    List String → Nat → Command × List Event
  | [], _ => (command, [])
  | t :: rest, i =>
    if t = REDIR then
      if i = 0 ∨ (i : Int) ≠ tokensEnd - 2 then
        ({ command with tokens := [] }, [Event.error])
      else
        ({ command with
            hasRedirection := true
            redirFile := command.tokens.getD (i + 1) ""
            tokens := command.tokens.dropLast.dropLast }, [])
    else parseRedirLoop command tokensEnd rest (i + 1)

/-- `parseRedir` (lines 76-93): the command as it is left, and the errors reported. -/
def parseRedir (command : Command) : Command × List Event :=
  parseRedirLoop command command.tokens.length command.tokens 0

/-! ## Orchestrator (lines 136-179) -/

/-- The variables of `process_command` that change in its dispatch loop, and the trace. -/
structure ShellState where
  paths : List String
  childPid : List Nat
  trace : List Event
deriving DecidableEq

/-- Append events to the trace. -/
def ShellState.emit (st : ShellState) (es : List Event) : ShellState :=
  { st with trace := st.trace ++ es }

/-- The body of the dispatch loop (lines 144-170) for one command.  The flag is
`true` when the body executed `return` (line 151). -/
def dispatchOne (sys : Sys) (command : Command) (st : ShellState) : ShellState × Bool :=
  match command.tokens with
  | [] => (st, false)
  | tok0 :: _ =>
    if tok0 = BUILTIN_PATH then
      let paths := set_paths command.tokens
      ({ st with paths := paths, trace := st.trace ++ [Event.setPaths paths] }, false)
    else if tok0 = BUILTIN_CD then
      if command.tokens.length ≠ 2 then
        (st.emit [Event.error], true)
      else
        let dir := command.tokens.getD 1 ""
        let ok := sys.chdir st.trace dir
        let st1 := st.emit [Event.chdir dir ok]
        if ok then (st1, false) else (st1.emit [Event.error], false)
    else
      let parsed := parseRedir command
      let command1 := parsed.1
      let st1 := st.emit parsed.2
      let argv := command1.tokens.map some ++ [none]
      let pid := sys.fork st1.trace
      let st2 := st1.emit
        [Event.fork argv command1.redirFile command1.hasRedirection st1.paths pid]
      match pid with
      | some p => ({ st2 with childPid := st2.childPid ++ [p] }, false)
      | none => (st2.emit [Event.error], false)

/-- The dispatch loop (lines 143-171).  The flag is `true` when the loop was left
by the `return` of line 151. -/
def dispatch (sys : Sys) : List Command → ShellState → ShellState × Bool
  | [], st => (st, false)
  | command :: rest, st =>
    match dispatchOne sys command st with
    | (st1, true) => (st1, true)
    | (st1, false) => dispatch sys rest st1

/-- How a call of `process_command` ends. -/
inductive Outcome where
  /-- The call returned to its caller, leaving this search path. -/
  | returned (paths : List String) (trace : List Event)
  /-- The call ended the shell with `exit(status)`. -/
  | exited (status : Nat)
deriving DecidableEq

/-- `process_command` (lines 136-179). -/
def process_command (sys : Sys) (input : String) (paths : List String) : Outcome :=
  if input = "" then Outcome.returned paths []
  else if input = EXIT then Outcome.exited 0
  else
    match dispatch sys (parseParallel input) ⟨paths, [], []⟩ with
    | (st, true) => Outcome.returned st.paths st.trace
    | (st, false) => Outcome.returned st.paths (st.trace ++ st.childPid.map Event.waitpid)

/-! ## Spawned process (lines 40-66 and 160-163) -/

/-- What a spawned process does that is visible outside it. -/
inductive ChildEvent where
  /-- `error()`. -/
  | error
  /-- `access(path, X_OK)`; `ok` tells whether it returned 0. -/
  | access (path : String) (ok : Bool)
  /-- `open(file, O_CREAT | O_TRUNC | O_RDWR, 0644)`; `fd` is `none` when it failed. -/
  | openFile (file : String) (fd : Option Nat)
  /-- `dup2(fd, target)`; `ok` tells whether it succeeded. -/
  | dup2 (fd : Nat) (target : Nat) (ok : Bool)
  /-- `close(fd)`. -/
  | close (fd : Nat)
  /-- `execv(path, argv)`; `ok` tells whether the process image was replaced. -/
  | execv (path : String) (argv : List (Option String)) (ok : Bool)
  /-- `exit(status)`. -/
  | exit (status : Nat)
  /-- The null pointer `tokens.at(0)` is handed to string concatenation: the
  behaviour of the process is undefined from here on. -/
  | nullName
  /-- `tokens.at(0)` on an empty vector throws `std::out_of_range`. -/
  | outOfRange
deriving DecidableEq

/-- The operating system as a spawned process sees it. -/
structure ChildSys where
  access : String → Bool
  openFile : String → Option Nat
  dup2 : Nat → Nat → Bool
  execv : String → List (Option String) → Bool

/-- `redir` (lines 40-52): what it does, and whether it returned (`false` when it
ended the process with `exit(1)`).  Standard output is descriptor 1, standard error
descriptor 2. -/
def redir (sys : ChildSys) (file : String) : List ChildEvent × Bool :=
  match sys.openFile file with
  | none => ([ChildEvent.openFile file none, ChildEvent.error, ChildEvent.exit 1], false)
  | some fd =>
    if sys.dup2 fd 1 = false then
      ([ChildEvent.openFile file (some fd), ChildEvent.dup2 fd 1 false, ChildEvent.error,
        ChildEvent.close fd, ChildEvent.exit 1], false)
    else if sys.dup2 fd 2 = false then
      ([ChildEvent.openFile file (some fd), ChildEvent.dup2 fd 1 true,
        ChildEvent.dup2 fd 2 false, ChildEvent.error, ChildEvent.close fd,
        ChildEvent.exit 1], false)
    else
      ([ChildEvent.openFile file (some fd), ChildEvent.dup2 fd 1 true,
        ChildEvent.dup2 fd 2 true, ChildEvent.close fd], true)

/-- Lines 58-61 of `child`: the candidate `exePath` passed the `access` test. -/
def runCandidate (sys : ChildSys) (argv : List (Option String)) (redirFile : String)
    (hasRedirection : Bool) (exePath : String) : List ChildEvent :=
  let r := if hasRedirection then redir sys redirFile else ([], true)
  if r.2 then
    r.1 ++
      (if sys.execv exePath argv then [ChildEvent.execv exePath argv true]
       else [ChildEvent.execv exePath argv false, ChildEvent.error, ChildEvent.exit 1])
  else r.1

/-- `child` (lines 54-66), by recursion on the directories still to try.  `argv` is
`commands.tokens`, null terminator included.  The directories and the program name
hold no NUL, so `exePath.c_str()` is `exePath`. -/
def child (sys : ChildSys) (argv : List (Option String)) (redirFile : String)
    (hasRedirection : Bool) : List String → List ChildEvent
  | [] => [ChildEvent.error, ChildEvent.exit 1]
  | path :: rest =>
    match argv with
    | [] => [ChildEvent.outOfRange]
    | none :: _ => [ChildEvent.nullName]
    | some name :: _ =>
      let exePath := path ++ "/" ++ name
      if sys.access exePath then
        ChildEvent.access exePath true
          :: runCandidate sys argv redirFile hasRedirection exePath
      else
        ChildEvent.access exePath false :: child sys argv redirFile hasRedirection rest

/-- Lines 160-163: the process created by a successful `fork` runs `child` on the
command and on the search path it inherits. -/
def Event.spawned (sys : ChildSys) : Event → Option (List ChildEvent)
  | Event.fork argv rf hr paths (some _) => some (child sys argv rf hr paths)
  | _ => none

/-- A system for spawned processes in which only `/bin/ls` and `/usr/bin/ls` are
executable and every other call succeeds. -/
def childSysOk : ChildSys :=
  ⟨fun path => path = "/bin/ls" ∨ path = "/usr/bin/ls", fun _ => some 3, fun _ _ => true,
    fun _ _ => true⟩

/-! ## Vocabulary of the specification -/

/-- The placement rule of the specification for the redirection operator: it occurs
exactly once, it is not the first token, and it is the second-to-last token. -/
def validPlacement (t : List String) : Prop :=
  t.count REDIR = 1 ∧ t.head? ≠ some REDIR ∧ 2 ≤ t.length ∧ t[t.length - 2]? = some REDIR

instance (t : List String) : Decidable (validPlacement t) := by
  unfold validPlacement; infer_instance

/-- A token list with malformed redirection: the operator occurs in it, and not in
the valid placement. -/
def malformedRedir (t : List String) : Prop := REDIR ∈ t ∧ ¬ validPlacement t

instance (t : List String) : Decidable (malformedRedir t) := by
  unfold malformedRedir; infer_instance

/-- A `cd` command with the wrong number of tokens. -/
def cdArityError (command : Command) : Prop :=
  command.tokens.head? = some BUILTIN_CD ∧ command.tokens.length ≠ 2

instance (command : Command) : Decidable (cdArityError command) := by
  unfold cdArityError; infer_instance

/-- What the orchestrator attempts, whatever the system answers: a spawn (with the
argument vector, the redirection fields and the search path handed to the new
process), a replacement of the search path, a change of directory. -/
inductive Action where
  | spawn (argv : List (Option String)) (redirFile : String) (hasRedirection : Bool)
      (paths : List String)
  | setPaths (paths : List String)
  | chdir (dir : String)
deriving DecidableEq

/-- The attempt recorded by an event, when it records one. -/
def Event.action? : Event → Option Action
  | Event.error => none
  | Event.setPaths ps => some (Action.setPaths ps)
  | Event.chdir dir _ => some (Action.chdir dir)
  | Event.fork argv rf hr ps _ => some (Action.spawn argv rf hr ps)
  | Event.waitpid _ => none

/-- The attempts of a trace, in order. -/
def actions (trace : List Event) : List Action := trace.filterMap Event.action?

/-- The pids a trace records from successful spawns, in order. -/
def recordedPids (trace : List Event) : List Nat :=
  trace.filterMap fun e => match e with
    | Event.fork _ _ _ _ (some p) => some p
    | _ => none

/-- The pids a trace waits on, in order. -/
def waitedPids (trace : List Event) : List Nat :=
  trace.filterMap fun e => match e with
    | Event.waitpid p => some p
    | _ => none

/-- The trace of a call of `process_command`; a call that ends the shell at line 138
has done nothing before. -/
def Outcome.trace : Outcome → List Event
  | Outcome.returned _ tr => tr
  | Outcome.exited _ => []

/-- The commands `process_command` parses from a line: none when it returns at
line 137 or ends the shell at line 138, those of `parseParallel` otherwise. -/
def parsedBatch (input : String) : List Command :=
  if input = "" then [] else if input = EXIT then [] else parseParallel input

/-- A command whose first token is neither `path` nor `cd`. -/
def isExternal (command : Command) : Prop :=
  command.tokens.head? ≠ some BUILTIN_PATH ∧ command.tokens.head? ≠ some BUILTIN_CD

instance (command : Command) : Decidable (isExternal command) := by
  unfold isExternal; infer_instance

/-- What each `fork` of a trace hands to the new process, apart from the search
path: the argument vector, the redirection file and the redirection flag. -/
def spawnFields (trace : List Event) : List (List (Option String) × String × Bool) :=
  trace.filterMap fun e => match e with
    | Event.fork argv rf hr _ _ => some (argv, rf, hr)
    | _ => none

/-- The spawn the specification describes for a command without malformed
redirection: with an operator, the tokens before it, redirected to the token after
it; without one, all the tokens and no redirection. -/
def specSpawn (command : Command) : List (Option String) × String × Bool :=
  if REDIR ∈ command.tokens then
    ((command.tokens.take (command.tokens.length - 2)).map some ++ [none],
      command.tokens.getD (command.tokens.length - 1) "", true)
  else (command.tokens.map some ++ [none], "", false)

/-- The search path set by the last `path` command of `pre`, or `paths` when `pre`
holds none. -/
def pathInForce (pre : List Command) (paths : List String) : List String :=
  match (pre.filter fun c => c.tokens.head? = some BUILTIN_PATH).getLast? with
  | some p => p.tokens.drop 1
  | none => paths

/-- The characters of all tokens of all commands, in order. -/
def tokenChars (commands : List Command) : List Char :=
  (commands.map fun c => (c.tokens.map String.data).flatten).flatten

/-- The characters the tokenizer holds in a state: those of the finished commands,
of the tokens of the command under construction, and of the buffer. -/
def ParseState.chars (st : ParseState) : List Char :=
  tokenChars st.commands ++ (st.currCommand.tokens.map String.data).flatten ++ st.temp.data

/-- The attempts made for one command as a function of the search path alone: the
attempts, the search path left, and whether the loop is left by `return`. -/
def commandActions (command : Command) (paths : List String) :
    List Action × List String × Bool :=
  match command.tokens with
  | [] => ([], paths, false)
  | tok0 :: _ =>
    if tok0 = BUILTIN_PATH then
      ([Action.setPaths (set_paths command.tokens)], set_paths command.tokens, false)
    else if tok0 = BUILTIN_CD then
      if command.tokens.length ≠ 2 then ([], paths, true)
      else ([Action.chdir (command.tokens.getD 1 "")], paths, false)
    else
      ([Action.spawn ((parseRedir command).1.tokens.map some ++ [none])
          (parseRedir command).1.redirFile (parseRedir command).1.hasRedirection paths],
        paths, false)

/-- The attempts made for a batch as a function of the search path alone. -/
def batchActions : List Command → List String → List Action × List String × Bool
  | [], paths => ([], paths, false)
  | command :: rest, paths =>
    match commandActions command paths with
    | (acts, paths1, true) => (acts, paths1, true)
    | (acts, paths1, false) =>
      (acts ++ (batchActions rest paths1).1, (batchActions rest paths1).2.1,
        (batchActions rest paths1).2.2)

/-- A system in which every `fork` yields pid 7 and every `chdir` succeeds. -/
def sysOk : Sys := ⟨fun _ => some 7, fun _ _ => true⟩

/-! ## Redirection extraction: lemmas -/

theorem parseRedirLoop_of_not_mem (command : Command) (tokensEnd : Int) :
    ∀ (l : List String) (i : Nat), REDIR ∉ l →
      parseRedirLoop command tokensEnd l i = (command, []) := by
  intro l
  induction l with
  | nil => intro i _; rfl
  | cons t rest ih =>
    intro i h
    have ht : t ≠ REDIR := fun e => h (by simp [e])
    have hrest : REDIR ∉ rest := fun e => h (by simp [e])
    simp only [parseRedirLoop, if_neg ht]
    exact ih (i + 1) hrest

theorem parseRedirLoop_append (command : Command) (tokensEnd : Int) :
    ∀ (a rest : List String) (i : Nat), REDIR ∉ a →
      parseRedirLoop command tokensEnd (a ++ rest) i
        = parseRedirLoop command tokensEnd rest (i + a.length) := by
  intro a
  induction a with
  | nil => intro rest i _; simp
  | cons t a ih =>
    intro rest i h
    have ht : t ≠ REDIR := fun e => h (by simp [e])
    have ha : REDIR ∉ a := fun e => h (by simp [e])
    simp only [List.cons_append, parseRedirLoop, if_neg ht, List.length_cons, List.append_eq]
    rw [ih rest (i + 1) ha]
    congr 1
    omega

/-- When the tokens hold no operator, `parseRedir` changes nothing. -/
theorem parseRedir_of_not_mem (command : Command) (h : REDIR ∉ command.tokens) :
    parseRedir command = (command, []) :=
  parseRedirLoop_of_not_mem command _ _ 0 h

/-- What `parseRedir` does at the first operator: `a` are the tokens before it,
`b` the tokens after it. -/
theorem parseRedir_first (a b : List String) (rf : String) (hr : Bool) (ha : REDIR ∉ a) :
    parseRedir ⟨a ++ REDIR :: b, rf, hr⟩ =
      if a = [] ∨ b.length ≠ 1 then (⟨[], rf, hr⟩, [Event.error])
      else (⟨a, b.getD 0 "", true⟩, []) := by
  unfold parseRedir
  simp only []
  rw [parseRedirLoop_append _ _ a _ 0 ha]
  simp only [parseRedirLoop, if_true, Nat.zero_add, List.length_append, List.length_cons]
  have hcond : (a.length = 0 ∨ ((a.length : Nat) : Int) ≠ ((a.length + (b.length + 1) : Nat) : Int) - 2)
      ↔ (a = [] ∨ b.length ≠ 1) := by
    rw [List.length_eq_zero]
    constructor
    · rintro (h | h)
      · exact Or.inl h
      · right; intro hb; apply h; push_cast; omega
    · rintro (h | h)
      · exact Or.inl h
      · right; intro hb; apply h; push_cast at hb; omega
  by_cases hc : a = [] ∨ b.length ≠ 1
  · rw [if_pos (hcond.mpr hc), if_pos hc]
  · rw [if_neg (fun h => hc (hcond.mp h)), if_neg hc]
    push_neg at hc
    obtain ⟨_, hb⟩ := hc
    match b, hb with
    | [f], _ =>
      have h1 : (a ++ [REDIR, f]).dropLast.dropLast = a := by
        simp [List.dropLast_append_cons]
      have h2 : (a ++ [REDIR, f]).getD (a.length + 1) "" = f := by
        rw [List.getD_eq_getElem?_getD, List.getElem?_append_right (by omega)]
        simp
      simp only [h1, h2]
      rfl

/-! ## Tokenizer: lemmas -/

theorem addToken_empty (tokens : List String) : addToken tokens "" = tokens := by
  simp [addToken]

theorem flushTemp_temp (st : ParseState) : (flushTemp st).temp = "" := rfl

theorem flushTemp_of_temp_empty (st : ParseState) (h : st.temp = "") : flushTemp st = st := by
  cases st with
  | mk cs cur temp =>
    cases cur
    simp only at h
    subst h
    simp [flushTemp, addToken_empty]

theorem flushTemp_idem (st : ParseState) : flushTemp (flushTemp st) = flushTemp st :=
  flushTemp_of_temp_empty _ rfl

theorem parseStep_space (st : ParseState) : parseStep st ' ' = flushTemp st := by
  simp [parseStep]

theorem parseStep_redir (st : ParseState) :
    parseStep st '>' =
      { flushTemp st with currCommand := { (flushTemp st).currCommand with
          tokens := addToken (flushTemp st).currCommand.tokens REDIR } } := by
  have h : ('>' : Char) ≠ ' ' := by decide
  simp [parseStep, REDIR_CHAR, h]

theorem parseStep_parallel (st : ParseState) :
    parseStep st '&' =
      if (flushTemp st).currCommand.tokens ≠ [] then
        { flushTemp st with
          commands := (flushTemp st).commands ++ [(flushTemp st).currCommand]
          currCommand := Command.fresh }
      else flushTemp st := by
  have h : ('&' : Char) ≠ ' ' := by decide
  have h2 : ('&' : Char) ≠ '>' := by decide
  simp [parseStep, REDIR_CHAR, PARALLEL_CHAR, h, h2]

theorem parseStep_other (st : ParseState) (c : Char) (h1 : c ≠ ' ') (h2 : c ≠ '>')
    (h3 : c ≠ '&') : parseStep st c = { st with temp := st.temp.push c } := by
  simp [parseStep, REDIR_CHAR, PARALLEL_CHAR, h1, h2, h3]

theorem flushTemp_plain (st : ParseState) (h : st.plain) : (flushTemp st).plain := h

theorem parseStep_plain (st : ParseState) (c : Char) (h : st.plain) : (parseStep st c).plain := by
  by_cases h1 : c = ' '
  · subst h1; rw [parseStep_space]; exact h
  by_cases h2 : c = '>'
  · subst h2; rw [parseStep_redir]; exact h
  by_cases h3 : c = '&'
  · subst h3; rw [parseStep_parallel]
    split
    · exact ⟨rfl, rfl⟩
    · exact h
  rw [parseStep_other st c h1 h2 h3]; exact h

theorem foldl_parseStep_plain (l : List Char) : ∀ st : ParseState, st.plain →
    (l.foldl parseStep st).plain := by
  induction l with
  | nil => intro st h; exact h
  | cons c l ih => intro st h; exact ih _ (parseStep_plain st c h)

theorem init_plain : ParseState.init.plain := ⟨rfl, rfl⟩

/-- At a separator the state is reset: the commands are those `parseFinish` would
return, and the command under construction and the buffer are empty. -/
theorem parseStep_parallel_eq (st : ParseState) (h : st.plain) :
    parseStep st '&' = ⟨parseFinish st, Command.fresh, ""⟩ := by
  rw [parseStep_parallel]
  unfold parseFinish
  by_cases hne : (flushTemp st).currCommand.tokens ≠ []
  · simp only [if_pos hne]; rfl
  · simp only [if_neg hne]
    push_neg at hne
    have hp := flushTemp_plain st h
    rcases hfs : flushTemp st with ⟨cs, ⟨toks, rf, hr⟩, temp⟩
    rw [hfs] at hne hp
    have ht : temp = "" := by
      have := flushTemp_temp st
      rw [hfs] at this
      exact this
    obtain ⟨h1, h2⟩ := hp
    simp only at hne h1 h2
    subst hne h1 h2 ht
    rfl

/-- Commands already finished are carried through the loop unchanged. -/
theorem foldl_parseStep_prepend (cs : List Command) (l : List Char) :
    ∀ st : ParseState,
      l.foldl parseStep ⟨cs ++ st.commands, st.currCommand, st.temp⟩
        = ⟨cs ++ (l.foldl parseStep st).commands, (l.foldl parseStep st).currCommand,
            (l.foldl parseStep st).temp⟩ := by
  induction l with
  | nil => intro st; rfl
  | cons c l ih =>
    intro st
    simp only [List.foldl_cons]
    rw [← ih (parseStep st c)]
    congr 1
    by_cases h1 : c = ' '
    · subst h1; simp only [parseStep_space]; rfl
    by_cases h2 : c = '>'
    · subst h2; simp only [parseStep_redir]; rfl
    by_cases h3 : c = '&'
    · subst h3; simp only [parseStep_parallel, flushTemp]
      split
      · simp
      · rfl
    simp only [parseStep_other _ c h1 h2 h3]

theorem parseFinish_prepend (cs : List Command) (st : ParseState) :
    parseFinish ⟨cs ++ st.commands, st.currCommand, st.temp⟩ = cs ++ parseFinish st := by
  unfold parseFinish
  simp only [flushTemp]
  split
  · simp
  · rfl

theorem parseParallel_data (l r : List Char) :
    parseFinish ((l ++ '&' :: r).foldl parseStep ParseState.init)
      = parseFinish (l.foldl parseStep ParseState.init)
        ++ parseFinish (r.foldl parseStep ParseState.init) := by
  rw [List.foldl_append, List.foldl_cons,
    parseStep_parallel_eq _ (foldl_parseStep_plain l _ init_plain)]
  have h := foldl_parseStep_prepend (parseFinish (l.foldl parseStep ParseState.init)) r
    ParseState.init
  simp only [ParseState.init, List.append_nil] at h ⊢
  rw [show Command.fresh = (⟨[], "", false⟩ : Command) from rfl] at h ⊢
  rw [h]
  exact parseFinish_prepend _ _

theorem parseStep_space_then (st : ParseState) (c : Char) (hc : c = '>' ∨ c = '&') :
    parseStep (parseStep st ' ') c = parseStep st c := by
  rcases hc with h | h <;> subst h
  · rw [parseStep_space, parseStep_redir, parseStep_redir, flushTemp_idem]
  · rw [parseStep_space, parseStep_parallel, parseStep_parallel, flushTemp_idem]

theorem parseStep_then_space (st : ParseState) (c : Char) (hc : c = '>' ∨ c = '&') :
    parseStep (parseStep st c) ' ' = parseStep st c := by
  rw [parseStep_space]
  apply flushTemp_of_temp_empty
  rcases hc with h | h <;> subst h
  · rw [parseStep_redir]; rfl
  · rw [parseStep_parallel]
    split
    · rfl
    · rfl

theorem c_str_data_subset (s : String) (c : Char) (h : c ∈ (c_str s).data) : c ∈ s.data :=
  (List.takeWhile_sublist _).subset h

theorem c_str_of_not_mem (s : String) (h : NUL ∉ s.data) : c_str s = s := by
  unfold c_str
  have : s.data.takeWhile (fun c => c != NUL) = s.data := by
    rw [List.takeWhile_eq_self_iff]
    intro c hc
    simp only [bne_iff_ne, ne_eq]
    intro e; exact h (e ▸ hc)
  rw [this]

theorem tokenOK_redir (nz : Prop) : tokenOK nz REDIR :=
  ⟨by decide, by decide, fun _ => rfl, fun _ => by decide⟩

theorem flushTemp_wf (nz : Prop) (st : ParseState) (h : st.wf nz) : (flushTemp st).wf nz := by
  obtain ⟨h1, h2, h3, h4, h5, h6⟩ := h
  refine ⟨h1, ?_, by simp [flushTemp], by simp [flushTemp], by simp [flushTemp],
    fun _ => by simp [flushTemp]⟩
  intro tok htok
  simp only [flushTemp, addToken] at htok
  split at htok
  · rename_i hne
    rcases List.mem_append.mp htok with hm | hm
    · exact h2 tok hm
    · have ht : tok = c_str st.temp := by simpa using hm
      subst ht
      refine ⟨fun hc => h3 (c_str_data_subset _ _ hc), fun hc => h4 (c_str_data_subset _ _ hc),
        fun hc => absurd (c_str_data_subset _ _ hc) h5, fun hz => ?_⟩
      rw [c_str_of_not_mem _ (h6 hz)]
      exact hne
  · exact h2 tok htok

theorem parseStep_wf (nz : Prop) (st : ParseState) (c : Char) (hc : nz → c ≠ NUL)
    (h : st.wf nz) : (parseStep st c).wf nz := by
  have hf := flushTemp_wf nz st h
  by_cases h1 : c = ' '
  · subst h1; rw [parseStep_space]; exact hf
  by_cases h2 : c = '>'
  · subst h2; rw [parseStep_redir]
    obtain ⟨f1, f2, f3, f4, f5, f6⟩ := hf
    refine ⟨f1, ?_, f3, f4, f5, f6⟩
    intro tok htok
    simp only [addToken] at htok
    rw [if_pos (by decide)] at htok
    rcases List.mem_append.mp htok with hm | hm
    · exact f2 tok hm
    · have ht : tok = c_str REDIR := by simpa using hm
      rw [ht, show c_str REDIR = REDIR from by decide]
      exact tokenOK_redir nz
  by_cases h3 : c = '&'
  · subst h3; rw [parseStep_parallel]
    obtain ⟨f1, f2, f3, f4, f5, f6⟩ := hf
    split
    · rename_i hne
      refine ⟨?_, ?_, f3, f4, f5, f6⟩
      · intro cmd hcmd
        rcases List.mem_append.mp hcmd with hm | hm
        · exact f1 cmd hm
        · have : cmd = (flushTemp st).currCommand := by simpa using hm
          subst this
          exact ⟨hne, f2⟩
      · intro tok htok
        simp [Command.fresh] at htok
    · exact ⟨f1, f2, f3, f4, f5, f6⟩
  rw [parseStep_other st c h1 h2 h3]
  obtain ⟨g1, g2, g3, g4, g5, g6⟩ := h
  refine ⟨g1, g2, ?_, ?_, ?_, ?_⟩
  · simp only [String.data_push, List.mem_append, List.mem_singleton, not_or]
    exact ⟨g3, fun e => h1 e.symm⟩
  · simp only [String.data_push, List.mem_append, List.mem_singleton, not_or]
    exact ⟨g4, fun e => h3 e.symm⟩
  · simp only [String.data_push, List.mem_append, List.mem_singleton, not_or]
    exact ⟨g5, fun e => h2 e.symm⟩
  · intro hz
    simp only [String.data_push, List.mem_append, List.mem_singleton, not_or]
    exact ⟨g6 hz, fun e => hc hz e.symm⟩

theorem foldl_parseStep_wf (nz : Prop) (l : List Char) (hl : nz → NUL ∉ l) :
    ∀ st : ParseState, st.wf nz → (l.foldl parseStep st).wf nz := by
  induction l with
  | nil => intro st h; exact h
  | cons c l ih =>
    intro st h
    have hc : nz → c ≠ NUL := fun hz e => hl hz (by simp [e])
    have hl2 : nz → NUL ∉ l := fun hz e => hl hz (by simp [e])
    exact ih hl2 _ (parseStep_wf nz st c hc h)

theorem init_wf (nz : Prop) : ParseState.init.wf nz := by
  refine ⟨?_, ?_, ?_, ?_, ?_, ?_⟩ <;> simp [ParseState.init, Command.fresh]

theorem parseFinish_wf (nz : Prop) (st : ParseState) (h : st.wf nz) :
    ∀ cmd ∈ parseFinish st, cmd.tokens ≠ [] ∧ ∀ tok ∈ cmd.tokens, tokenOK nz tok := by
  obtain ⟨f1, f2, -⟩ := flushTemp_wf nz st h
  intro cmd hcmd
  unfold parseFinish at hcmd
  simp only at hcmd
  split at hcmd
  · rename_i hne
    rcases List.mem_append.mp hcmd with hm | hm
    · exact f1 cmd hm
    · have : cmd = (flushTemp st).currCommand := by simpa using hm
      subst this
      exact ⟨hne, f2⟩
  · exact f1 cmd hcmd

/-! ## Orchestrator: lemmas -/

theorem set_paths_loop (pre : List String) :
    ∀ (ts acc : List String),
      (List.range' pre.length ts.length).foldl
          (fun paths i => paths ++ [(pre ++ ts).getD i ""]) acc
        = acc ++ ts := by
  intro ts
  induction ts generalizing pre with
  | nil => intro acc; simp
  | cons x ts ih =>
    intro acc
    have hx : (pre ++ x :: ts).getD pre.length "" = x := by
      rw [List.getD_eq_getElem?_getD, List.getElem?_append_right (le_refl _)]
      simp
    have h := ih (pre ++ [x]) (acc ++ [x])
    simp only [List.length_append, List.length_singleton, List.append_assoc,
      List.singleton_append] at h
    simp only [List.length_cons, List.range'_succ, List.foldl_cons, hx]
    rw [h]

theorem set_paths_eq_drop (tokens : List String) : set_paths tokens = tokens.drop 1 := by
  unfold set_paths
  cases tokens with
  | nil => rfl
  | cons t ts =>
    have h := set_paths_loop [t] ts []
    simpa using h

theorem parseRedirLoop_events (command : Command) (tokensEnd : Int) :
    ∀ (l : List String) (i : Nat),
      (parseRedirLoop command tokensEnd l i).2 = []
      ∨ (parseRedirLoop command tokensEnd l i).2 = [Event.error] := by
  intro l
  induction l with
  | nil => intro i; exact Or.inl rfl
  | cons t rest ih =>
    intro i
    simp only [parseRedirLoop]
    split
    · split
      · exact Or.inr rfl
      · exact Or.inl rfl
    · exact ih (i + 1)

theorem actions_parseRedir (command : Command) : actions (parseRedir command).2 = [] := by
  rcases parseRedirLoop_events command command.tokens.length command.tokens 0 with h | h
  · unfold parseRedir; rw [h]; rfl
  · unfold parseRedir; rw [h]; rfl

theorem actions_append (a b : List Event) : actions (a ++ b) = actions a ++ actions b := by
  simp [actions, List.filterMap_append]

theorem dispatchOne_actions (sys : Sys) (command : Command) (st : ShellState) :
    actions (dispatchOne sys command st).1.trace
        = actions st.trace ++ (commandActions command st.paths).1
    ∧ (dispatchOne sys command st).1.paths = (commandActions command st.paths).2.1
    ∧ (dispatchOne sys command st).2 = (commandActions command st.paths).2.2 := by
  unfold dispatchOne commandActions
  split
  · simp
  · split
    · simp [actions_append, actions, Event.action?]
    · split
      · split
        · simp [ShellState.emit, actions_append, actions, Event.action?]
        · simp only []
          split <;> simp [ShellState.emit, actions_append, actions, Event.action?]
      · simp only []
        have hp := actions_parseRedir command
        split <;>
          simp [ShellState.emit, actions_append, hp] <;>
          simp [actions, Event.action?]

theorem dispatch_actions (sys : Sys) (cs : List Command) :
    ∀ st : ShellState,
      actions (dispatch sys cs st).1.trace = actions st.trace ++ (batchActions cs st.paths).1
      ∧ (dispatch sys cs st).1.paths = (batchActions cs st.paths).2.1
      ∧ (dispatch sys cs st).2 = (batchActions cs st.paths).2.2 := by
  induction cs with
  | nil => intro st; simp [dispatch, batchActions]
  | cons c rest ih =>
    intro st
    obtain ⟨h1, h2, h3⟩ := dispatchOne_actions sys c st
    rcases hd : dispatchOne sys c st with ⟨st1, flag⟩
    rcases hc : commandActions c st.paths with ⟨acts, ps, fl⟩
    rw [hd, hc] at h1 h2 h3
    simp only at h1 h2 h3
    subst h3
    cases flag
    · simp only [dispatch, batchActions, hd, hc]
      obtain ⟨i1, i2, i3⟩ := ih st1
      rw [h2] at i1 i2 i3
      refine ⟨?_, i2, i3⟩
      rw [i1, h1, List.append_assoc]
    · simp only [dispatch, batchActions, hd, hc]
      exact ⟨h1, h2, trivial⟩

theorem commandActions_flag (command : Command) (paths : List String) :
    (commandActions command paths).2.2 = true ↔ cdArityError command := by
  unfold commandActions cdArityError
  split
  · rename_i h; simp [h]
  · rename_i tok0 tl h
    rw [h]
    split
    · rename_i hp
      subst hp
      simp [BUILTIN_PATH, BUILTIN_CD]
    · split
      · rename_i hcd
        subst hcd
        split
        · rename_i hl
          simp only [List.length_cons] at hl
          simp only [List.head?_cons, List.length_cons, true_and]
          exact ⟨fun _ => hl, fun _ => trivial⟩
        · rename_i hl
          simp only [List.length_cons, ne_eq, not_not] at hl
          simp [hl]
      · rename_i hcd
        simp [hcd]

theorem dispatchOne_flag (sys : Sys) (command : Command) (st : ShellState) :
    (dispatchOne sys command st).2 = true ↔ cdArityError command := by
  rw [(dispatchOne_actions sys command st).2.2]
  exact commandActions_flag command st.paths

theorem dispatchOne_cdArityError (sys : Sys) (command : Command) (st : ShellState)
    (h : cdArityError command) :
    dispatchOne sys command st = (st.emit [Event.error], true) := by
  obtain ⟨hhead, hlen⟩ := h
  unfold dispatchOne
  split
  · rename_i h0; rw [h0] at hhead; simp at hhead
  · rename_i tok0 tl h0
    rw [h0] at hhead hlen
    have ht : tok0 = BUILTIN_CD := by simpa using hhead
    subst ht
    rw [if_neg (by decide), if_pos rfl, if_pos (by rw [h0]; exact hlen)]

theorem dispatch_flag_false (sys : Sys) (cs : List Command) (h : ∀ d ∈ cs, ¬ cdArityError d) :
    ∀ st : ShellState, (dispatch sys cs st).2 = false := by
  induction cs with
  | nil => intro st; rfl
  | cons c rest ih =>
    intro st
    have hc : (dispatchOne sys c st).2 = false := by
      cases hf : (dispatchOne sys c st).2
      · rfl
      · exact absurd ((dispatchOne_flag sys c st).mp hf) (h c (by simp))
    rcases hd : dispatchOne sys c st with ⟨st1, flag⟩
    rw [hd] at hc
    simp only at hc
    subst hc
    simp only [dispatch, hd]
    exact ih (fun d hdm => h d (by simp [hdm])) st1

theorem dispatch_append (sys : Sys) (pre rest : List Command) :
    ∀ st : ShellState, (dispatch sys pre st).2 = false →
      dispatch sys (pre ++ rest) st = dispatch sys rest (dispatch sys pre st).1 := by
  induction pre with
  | nil => intro st _; rfl
  | cons c pre ih =>
    intro st h
    rcases hd : dispatchOne sys c st with ⟨st1, flag⟩
    cases flag
    · simp only [List.cons_append, dispatch, hd] at h ⊢
      exact ih st1 h
    · simp [dispatch, hd] at h

theorem exists_first_split {α : Type} (P : α → Prop) [DecidablePred P] :
    ∀ l : List α, (∃ c ∈ l, P c) →
      ∃ pre c post, l = pre ++ c :: post ∧ P c ∧ ∀ d ∈ pre, ¬ P d := by
  intro l
  induction l with
  | nil => rintro ⟨c, hc, _⟩; simp at hc
  | cons x l ih =>
    rintro ⟨c, hc, hP⟩
    by_cases hx : P x
    · exact ⟨[], x, l, rfl, hx, by simp⟩
    · have hcl : c ∈ l := by
        rcases List.mem_cons.mp hc with e | e
        · exact absurd (e ▸ hP) hx
        · exact e
      obtain ⟨pre, c1, post, e, hP1, hpre⟩ := ih ⟨c, hcl, hP⟩
      refine ⟨x :: pre, c1, post, by rw [e]; rfl, hP1, ?_⟩
      intro d hd
      rcases List.mem_cons.mp hd with e1 | e1
      · exact e1 ▸ hx
      · exact hpre d e1

theorem parseParallel_empty : parseParallel "" = [] := by decide

theorem parseParallel_exit : parseParallel EXIT = [⟨["exit"], "", false⟩] := by decide

theorem batchActions_append (pre rest : List Command) :
    ∀ paths : List String,
      batchActions (pre ++ rest) paths =
        if (batchActions pre paths).2.2 = true then batchActions pre paths
        else ((batchActions pre paths).1 ++ (batchActions rest (batchActions pre paths).2.1).1,
              (batchActions rest (batchActions pre paths).2.1).2.1,
              (batchActions rest (batchActions pre paths).2.1).2.2) := by
  induction pre with
  | nil => intro paths; simp [batchActions]
  | cons c pre ih =>
    intro paths
    rcases hc : commandActions c paths with ⟨acts, ps, fl⟩
    cases fl
    · simp only [List.cons_append, batchActions, hc, List.append_eq]
      rw [ih ps]
      split
      · rfl
      · simp [List.append_assoc]
    · simp [batchActions, hc]

theorem commandActions_external (command : Command) (paths : List String)
    (hne : command.tokens ≠ [])
    (hpath : command.tokens.head? ≠ some BUILTIN_PATH)
    (hcd : command.tokens.head? ≠ some BUILTIN_CD) :
    commandActions command paths =
      ([Action.spawn ((parseRedir command).1.tokens.map some ++ [none])
          (parseRedir command).1.redirFile (parseRedir command).1.hasRedirection paths],
        paths, false) := by
  unfold commandActions
  split
  · rename_i h; exact absurd h hne
  · rename_i tok0 tl h
    rw [h] at hpath hcd
    have h1 : tok0 ≠ BUILTIN_PATH := fun e => hpath (by simp [e])
    have h2 : tok0 ≠ BUILTIN_CD := fun e => hcd (by simp [e])
    rw [if_neg h1, if_neg h2]

theorem actions_waitpid (l : List Nat) : actions (l.map Event.waitpid) = [] := by
  induction l with
  | nil => rfl
  | cons p l ih =>
    simp only [actions, List.map_cons, List.filterMap_cons, Event.action?] at ih ⊢
    exact ih

theorem actions_process_command (sys : Sys) (line : String) (paths : List String)
    (hne : line ≠ EXIT) :
    actions (process_command sys line paths).trace
      = (batchActions (parseParallel line) paths).1 := by
  by_cases h0 : line = ""
  · subst h0
    rw [parseParallel_empty]
    rfl
  · unfold process_command
    rw [if_neg h0, if_neg hne]
    obtain ⟨h1, -, -⟩ := dispatch_actions sys (parseParallel line) ⟨paths, [], []⟩
    rcases hd : dispatch sys (parseParallel line) ⟨paths, [], []⟩ with ⟨st, flag⟩
    rw [hd] at h1
    simp only at h1
    cases flag
    · simp only [Outcome.trace]
      rw [actions_append, actions_waitpid, List.append_nil, h1]
      rfl
    · simp only [Outcome.trace]
      rw [h1]
      rfl

theorem recordedPids_append (a b : List Event) :
    recordedPids (a ++ b) = recordedPids a ++ recordedPids b := by
  simp [recordedPids, List.filterMap_append]

theorem waitedPids_append (a b : List Event) :
    waitedPids (a ++ b) = waitedPids a ++ waitedPids b := by
  simp [waitedPids, List.filterMap_append]

/-- The loop body only appends to the trace; the pids it records are those of the
successful forks it appends, and it appends no `waitpid`. -/
theorem dispatchOne_pids (sys : Sys) (command : Command) (st : ShellState) :
    ∃ es, (dispatchOne sys command st).1.trace = st.trace ++ es
      ∧ (dispatchOne sys command st).1.childPid = st.childPid ++ recordedPids es
      ∧ waitedPids es = [] := by
  unfold dispatchOne
  split
  · exact ⟨[], by simp, by simp [recordedPids], rfl⟩
  · split
    · exact ⟨[Event.setPaths (set_paths command.tokens)], rfl, by simp [recordedPids], rfl⟩
    · split
      · split
        · exact ⟨[Event.error], rfl, by simp [ShellState.emit, recordedPids], rfl⟩
        · simp only []
          split
          · exact ⟨[Event.chdir _ _], rfl, by simp [ShellState.emit, recordedPids], rfl⟩
          · exact ⟨[Event.chdir (command.tokens.getD 1 "")
                (sys.chdir st.trace (command.tokens.getD 1 "")), Event.error],
              by simp [ShellState.emit], by simp [ShellState.emit, recordedPids], rfl⟩
      · simp only []
        have hev : recordedPids (parseRedir command).2 = [] ∧
            waitedPids (parseRedir command).2 = [] := by
          rcases parseRedirLoop_events command command.tokens.length command.tokens 0
            with h | h <;> (unfold parseRedir; rw [h]; exact ⟨rfl, rfl⟩)
        simp only [ShellState.emit]
        cases hp : sys.fork (st.trace ++ (parseRedir command).2) with
        | some p =>
          refine ⟨(parseRedir command).2 ++
            [Event.fork ((parseRedir command).1.tokens.map some ++ [none])
              (parseRedir command).1.redirFile (parseRedir command).1.hasRedirection
              st.paths (some p)], ?_, ?_, ?_⟩
          · simp
          · rw [recordedPids_append, hev.1]; simp [recordedPids]
          · rw [waitedPids_append, hev.2]; rfl
        | none =>
          refine ⟨(parseRedir command).2 ++
            [Event.fork ((parseRedir command).1.tokens.map some ++ [none])
              (parseRedir command).1.redirFile (parseRedir command).1.hasRedirection
              st.paths none, Event.error], ?_, ?_, ?_⟩
          · simp
          · rw [recordedPids_append, hev.1]; simp [recordedPids]
          · rw [waitedPids_append, hev.2]; rfl

theorem dispatch_pids (sys : Sys) (cs : List Command) :
    ∀ st : ShellState,
      ∃ es, (dispatch sys cs st).1.trace = st.trace ++ es
        ∧ (dispatch sys cs st).1.childPid = st.childPid ++ recordedPids es
        ∧ waitedPids es = [] := by
  induction cs with
  | nil => intro st; exact ⟨[], by simp [dispatch], by simp [dispatch, recordedPids], rfl⟩
  | cons c rest ih =>
    intro st
    obtain ⟨es, h1, h2, h3⟩ := dispatchOne_pids sys c st
    rcases hd : dispatchOne sys c st with ⟨st1, flag⟩
    rw [hd] at h1 h2
    simp only at h1 h2
    cases flag
    · obtain ⟨es2, i1, i2, i3⟩ := ih st1
      refine ⟨es ++ es2, ?_, ?_, ?_⟩
      · simp only [dispatch, hd]; rw [i1, h1, List.append_assoc]
      · simp only [dispatch, hd]; rw [i2, h2, recordedPids_append, List.append_assoc]
      · rw [waitedPids_append, h3, i3]; rfl
    · exact ⟨es, by simp only [dispatch, hd]; exact h1, by simp only [dispatch, hd]; exact h2, h3⟩

/-- On a line other than `exit` without a `cd` arity error, `process_command` ends
by waiting on the pids recorded from the successful forks of the line, in the order
in which they were recorded, and waits on nothing before. -/
theorem process_command_waits_without_cd_error (sys : Sys) (line : String)
    (paths : List String) (hexit : line ≠ EXIT)
    (h : ∀ c ∈ parseParallel line, ¬ cdArityError c) :
    ∃ ps tr, process_command sys line paths
        = Outcome.returned ps (tr ++ (recordedPids tr).map Event.waitpid)
      ∧ waitedPids tr = [] := by
  by_cases h0 : line = ""
  · exact ⟨paths, [], by simp [process_command, h0, recordedPids], rfl⟩
  · obtain ⟨es, h1, h2, h3⟩ := dispatch_pids sys (parseParallel line) ⟨paths, [], []⟩
    have hf := dispatch_flag_false sys (parseParallel line) h ⟨paths, [], []⟩
    rcases hd : dispatch sys (parseParallel line) ⟨paths, [], []⟩ with ⟨st, flag⟩
    rw [hd] at h1 h2 hf
    simp only [List.nil_append] at h1 h2 hf
    subst hf
    refine ⟨st.paths, es, ?_, h3⟩
    unfold process_command
    rw [if_neg h0, if_neg hexit, hd]
    simp only [h1, h2]

/-- A malformed redirection is reported by `parseRedir`, except when the tokens end
with two operators preceded by operator-free tokens. -/
theorem parseRedir_malformed (t : List String) (rf : String) (hr : Bool)
    (h : malformedRedir t) :
    parseRedir ⟨t, rf, hr⟩ = (⟨[], rf, hr⟩, [Event.error])
    ∨ ∃ a, a ≠ [] ∧ REDIR ∉ a ∧ t = a ++ [REDIR, REDIR] := by
  obtain ⟨hmem, hnv⟩ := h
  obtain ⟨a, c, b, hsplit, hc, ha⟩ :=
    exists_first_split (fun x : String => x = REDIR) t ⟨REDIR, hmem, rfl⟩
  subst hc
  have hna : REDIR ∉ a := fun hm => ha REDIR hm rfl
  rw [hsplit, parseRedir_first a b rf hr hna]
  by_cases hcond : a = [] ∨ b.length ≠ 1
  · left; rw [if_pos hcond]
  · right
    push_neg at hcond
    obtain ⟨hane, hb⟩ := hcond
    match b, hb with
    | [f], _ =>
      refine ⟨a, hane, hna, ?_⟩
      by_cases hf : f = REDIR
      · rw [hf]
      · exfalso
        apply hnv
        rw [hsplit]
        obtain ⟨x, xs, rfl⟩ := List.exists_cons_of_ne_nil hane
        have hx : x ≠ REDIR := fun e => hna (by simp [e])
        refine ⟨?_, ?_, ?_, ?_⟩
        · rw [List.count_append, List.count_eq_zero.mpr hna, List.count_cons_self,
            List.count_cons_of_ne (Ne.symm hf)]
          rfl
        · simp only [List.cons_append, List.head?_cons, ne_eq, Option.some.injEq]
          exact hx
        · simp
        · have hl : (x :: xs ++ [REDIR, f]).length - 2 = (x :: xs).length := by simp
          rw [hl, List.getElem?_append_right (le_refl _)]
          simp

/-! ## Lemmas on parsed batches -/

theorem parseStep_commands_plain (st : ParseState) (c : Char) (hcur : st.plain)
    (h : ∀ cmd ∈ st.commands, cmd.redirFile = "" ∧ cmd.hasRedirection = false) :
    ∀ cmd ∈ (parseStep st c).commands, cmd.redirFile = "" ∧ cmd.hasRedirection = false := by
  by_cases h1 : c = ' '
  · subst h1; rw [parseStep_space]; exact h
  by_cases h2 : c = '>'
  · subst h2; rw [parseStep_redir]; exact h
  by_cases h3 : c = '&'
  · subst h3; rw [parseStep_parallel]
    split
    · intro cmd hcmd
      rcases List.mem_append.mp hcmd with hm | hm
      · exact h cmd hm
      · have : cmd = (flushTemp st).currCommand := by simpa using hm
        subst this
        exact hcur
    · exact h
  rw [parseStep_other st c h1 h2 h3]; exact h

theorem foldl_parseStep_commands_plain (l : List Char) :
    ∀ st : ParseState, st.plain →
      (∀ cmd ∈ st.commands, cmd.redirFile = "" ∧ cmd.hasRedirection = false) →
      ∀ cmd ∈ (l.foldl parseStep st).commands,
        cmd.redirFile = "" ∧ cmd.hasRedirection = false := by
  induction l with
  | nil => intro st _ h; exact h
  | cons c l ih =>
    intro st hcur h
    exact ih _ (parseStep_plain st c hcur) (parseStep_commands_plain st c hcur h)

/-- Commands leave the tokenizer without redirection fields. -/
theorem parseParallel_plain (line : String) :
    ∀ cmd ∈ parseParallel line, cmd.redirFile = "" ∧ cmd.hasRedirection = false := by
  intro cmd hcmd
  have hcur := foldl_parseStep_plain line.data _ init_plain
  have hall := foldl_parseStep_commands_plain line.data ParseState.init init_plain
    (by intro c hc; simp [ParseState.init] at hc)
  unfold parseParallel parseFinish at hcmd
  simp only at hcmd
  split at hcmd
  · rcases List.mem_append.mp hcmd with hm | hm
    · exact hall cmd hm
    · have : cmd = (flushTemp (line.data.foldl parseStep ParseState.init)).currCommand := by
        simpa using hm
      subst this
      exact hcur
  · exact hall cmd hcmd

/-- Commands leave the tokenizer with at least one token. -/
theorem parseParallel_tokens_ne_nil (line : String) :
    ∀ cmd ∈ parseParallel line, cmd.tokens ≠ [] := fun cmd hcmd =>
  (parseFinish_wf False _
    (foldl_parseStep_wf False line.data (fun h => h.elim) _ (init_wf False)) cmd hcmd).1

/-! ## The loop body, by kind of command -/

theorem dispatchOne_of_path (sys : Sys) (command : Command) (st : ShellState)
    (h : command.tokens.head? = some BUILTIN_PATH) :
    dispatchOne sys command st
      = (⟨command.tokens.drop 1, st.childPid,
          st.trace ++ [Event.setPaths (command.tokens.drop 1)]⟩, false) := by
  unfold dispatchOne
  split
  · rename_i h0; rw [h0] at h; simp at h
  · rename_i tok0 tl h0
    have ht : tok0 = BUILTIN_PATH := by rw [h0] at h; simpa using h
    subst ht
    rw [if_pos rfl, set_paths_eq_drop]

theorem dispatchOne_of_cd (sys : Sys) (command : Command) (st : ShellState)
    (h : command.tokens.head? = some BUILTIN_CD) (hlen : command.tokens.length = 2) :
    dispatchOne sys command st
      = (st.emit (Event.chdir (command.tokens.getD 1 "")
            (sys.chdir st.trace (command.tokens.getD 1 ""))
          :: if sys.chdir st.trace (command.tokens.getD 1 "") = true then []
             else [Event.error]), false) := by
  unfold dispatchOne
  split
  · rename_i h0; rw [h0] at h; simp at h
  · rename_i tok0 tl h0
    have ht : tok0 = BUILTIN_CD := by rw [h0] at h; simpa using h
    subst ht
    rw [if_neg (by decide), if_pos rfl, if_neg (by simp [hlen])]
    simp only []
    cases hok : sys.chdir st.trace (command.tokens.getD 1 "")
    · simp [ShellState.emit]
    · simp [ShellState.emit]

theorem dispatchOne_of_external (sys : Sys) (command : Command) (st : ShellState)
    (hne : command.tokens ≠ []) (hext : isExternal command) :
    dispatchOne sys command st
      = (⟨st.paths,
          st.childPid ++ (sys.fork (st.trace ++ (parseRedir command).2)).toList,
          st.trace ++ (parseRedir command).2
            ++ Event.fork ((parseRedir command).1.tokens.map some ++ [none])
                (parseRedir command).1.redirFile (parseRedir command).1.hasRedirection
                st.paths (sys.fork (st.trace ++ (parseRedir command).2))
              :: if (sys.fork (st.trace ++ (parseRedir command).2)).isSome = true then []
                 else [Event.error]⟩, false) := by
  obtain ⟨hp, hc⟩ := hext
  unfold dispatchOne
  split
  · rename_i h0; exact absurd h0 hne
  · rename_i tok0 tl h0
    rw [h0] at hp hc
    have h1 : tok0 ≠ BUILTIN_PATH := fun e => hp (by simp [e])
    have h2 : tok0 ≠ BUILTIN_CD := fun e => hc (by simp [e])
    rw [if_neg h1, if_neg h2]
    simp only [ShellState.emit]
    cases hf : sys.fork (st.trace ++ (parseRedir command).2) <;> simp

theorem command_kind (command : Command) :
    command.tokens.head? = some BUILTIN_PATH ∨ command.tokens.head? = some BUILTIN_CD
    ∨ isExternal command := by
  by_cases h1 : command.tokens.head? = some BUILTIN_PATH
  · exact Or.inl h1
  · by_cases h2 : command.tokens.head? = some BUILTIN_CD
    · exact Or.inr (Or.inl h2)
    · exact Or.inr (Or.inr ⟨h1, h2⟩)

theorem not_isExternal_of_path (command : Command)
    (h : command.tokens.head? = some BUILTIN_PATH) : ¬ isExternal command :=
  fun he => he.1 h

theorem not_isExternal_of_cd (command : Command)
    (h : command.tokens.head? = some BUILTIN_CD) : ¬ isExternal command :=
  fun he => he.2 h

/-- With the operator once, as second-to-last of at least three tokens, `parseRedir`
keeps the tokens before it and records the last token as the file. -/
theorem parseRedir_at_second_last (t : List String) (rf : String) (hr : Bool)
    (hlen : 3 ≤ t.length) (hcount : t.count REDIR = 1)
    (hidx : t[t.length - 2]? = some REDIR) :
    parseRedir ⟨t, rf, hr⟩
      = (⟨t.take (t.length - 2), t.getD (t.length - 1) "", true⟩, []) := by
  obtain ⟨a, f, hsplit, hlast⟩ : ∃ a f, t.drop (t.length - 2) = [a, f] ∧
      t[t.length - 1]? = some f := by
    have hl : (t.drop (t.length - 2)).length = 2 := by rw [List.length_drop]; omega
    match hd : t.drop (t.length - 2), hl with
    | [a, f], _ =>
      refine ⟨a, f, rfl, ?_⟩
      have h1 : (t.drop (t.length - 2))[1]? = some f := by rw [hd]; rfl
      rw [List.getElem?_drop] at h1
      rw [← h1]; congr 1; omega
  have ha : a = REDIR := by
    have h0 : (t.drop (t.length - 2))[0]? = some a := by rw [hsplit]; rfl
    rw [List.getElem?_drop, Nat.add_zero, hidx] at h0
    exact (Option.some.inj h0).symm
  subst ha
  have ht : t = t.take (t.length - 2) ++ REDIR :: [f] := by
    rw [← hsplit, List.take_append_drop]
  have hpre : REDIR ∉ t.take (t.length - 2) := by
    have hc := hcount
    rw [ht, List.count_append, List.count_cons_self] at hc
    exact List.count_eq_zero.mp (by omega)
  have hne : t.take (t.length - 2) ≠ [] := by
    intro h
    have := congrArg List.length h
    rw [List.length_take] at this
    simp at this
    omega
  have key := parseRedir_first (t.take (t.length - 2)) [f] rf hr hpre
  rw [← ht] at key
  rw [key, if_neg (by simp [hne])]
  have hf : t.getD (t.length - 1) "" = f := by
    rw [List.getD_eq_getElem?_getD, hlast]; rfl
  rw [hf]; rfl

theorem parseRedir_of_validPlacement (t : List String) (rf : String) (hr : Bool)
    (h : validPlacement t) :
    parseRedir ⟨t, rf, hr⟩
      = (⟨t.take (t.length - 2), t.getD (t.length - 1) "", true⟩, []) := by
  obtain ⟨hcount, hhead, hlen, hidx⟩ := h
  have h3 : 3 ≤ t.length := by
    by_contra hlt
    have h2 : t.length = 2 := by omega
    rw [h2] at hidx
    match t, h2 with
    | [x, y], _ =>
      simp at hidx
      exact hhead (by simp [hidx])
  exact parseRedir_at_second_last t rf hr h3 hcount hidx

/-- Without malformed redirection the fields `parseRedir` leaves are those of the
specification. -/
theorem parseRedir_specSpawn (command : Command)
    (hplain : command.redirFile = "" ∧ command.hasRedirection = false)
    (hmal : ¬ malformedRedir command.tokens) :
    (parseRedir command).2 = []
    ∧ ((parseRedir command).1.tokens.map some ++ [none], (parseRedir command).1.redirFile,
        (parseRedir command).1.hasRedirection) = specSpawn command := by
  rcases command with ⟨t, rf, hr⟩
  obtain ⟨h1, h2⟩ := hplain
  simp only at h1 h2 hmal
  subst h1 h2
  unfold specSpawn
  by_cases hmem : REDIR ∈ t
  · have hv : validPlacement t := by
      by_contra hv; exact hmal ⟨hmem, hv⟩
    rw [parseRedir_of_validPlacement t _ _ hv]
    simp [hmem]
  · rw [parseRedir_of_not_mem _ hmem]
    simp [hmem]

theorem spawnFields_append (a b : List Event) :
    spawnFields (a ++ b) = spawnFields a ++ spawnFields b := by
  simp [spawnFields, List.filterMap_append]

theorem dispatchOne_spawnFields (sys : Sys) (command : Command) (st : ShellState)
    (hne : command.tokens ≠ [])
    (hplain : command.redirFile = "" ∧ command.hasRedirection = false)
    (hmal : ¬ malformedRedir command.tokens) (hcd : ¬ cdArityError command) :
    spawnFields (dispatchOne sys command st).1.trace
        = spawnFields st.trace ++ ([command].filter fun c => isExternal c).map specSpawn
    ∧ (dispatchOne sys command st).2 = false := by
  rcases command_kind command with h | h | h
  · rw [dispatchOne_of_path sys command st h]
    simp [List.filter, not_isExternal_of_path command h, spawnFields_append, spawnFields]
  · have hlen : command.tokens.length = 2 := by
      by_contra hl; exact hcd ⟨h, hl⟩
    rw [dispatchOne_of_cd sys command st h hlen]
    simp only [ShellState.emit, spawnFields_append]
    simp only [List.filter, not_isExternal_of_cd command h, decide_False, List.map_nil,
      List.append_nil, and_true]
    split <;> simp [spawnFields]
  · rw [dispatchOne_of_external sys command st hne h]
    obtain ⟨he, hf⟩ := parseRedir_specSpawn command hplain hmal
    simp only [he, List.append_nil, spawnFields_append, and_true]
    simp only [List.filter, h, decide_True, List.map_cons, List.map_nil]
    rw [← hf]
    split <;> simp [spawnFields]

theorem dispatch_spawnFields (sys : Sys) (cs : List Command)
    (hne : ∀ c ∈ cs, c.tokens ≠ [])
    (hplain : ∀ c ∈ cs, c.redirFile = "" ∧ c.hasRedirection = false)
    (hmal : ∀ c ∈ cs, ¬ malformedRedir c.tokens) (hcd : ∀ c ∈ cs, ¬ cdArityError c) :
    ∀ st : ShellState,
      spawnFields (dispatch sys cs st).1.trace
        = spawnFields st.trace ++ (cs.filter fun c => isExternal c).map specSpawn := by
  induction cs with
  | nil => intro st; simp [dispatch]
  | cons c rest ih =>
    intro st
    obtain ⟨h1, h2⟩ := dispatchOne_spawnFields sys c st (hne c (by simp)) (hplain c (by simp))
      (hmal c (by simp)) (hcd c (by simp))
    rcases hd : dispatchOne sys c st with ⟨st1, flag⟩
    rw [hd] at h1 h2
    simp only at h1 h2
    subst h2
    simp only [dispatch, hd]
    rw [ih (fun d hd => hne d (by simp [hd])) (fun d hd => hplain d (by simp [hd]))
      (fun d hd => hmal d (by simp [hd])) (fun d hd => hcd d (by simp [hd])) st1, h1,
      List.append_assoc, ← List.map_append, ← List.filter_append]
    rfl

theorem spawnFields_waitpid (l : List Nat) : spawnFields (l.map Event.waitpid) = [] := by
  induction l with
  | nil => rfl
  | cons p l ih =>
    simp only [spawnFields, List.map_cons, List.filterMap_cons] at ih ⊢
    exact ih

/-! ## Search path along a batch -/

theorem pathInForce_cons (d : Command) (pre : List Command) (paths : List String) :
    pathInForce (d :: pre) paths
      = pathInForce pre
          (if d.tokens.head? = some BUILTIN_PATH then d.tokens.drop 1 else paths) := by
  unfold pathInForce
  by_cases hd : d.tokens.head? = some BUILTIN_PATH
  · simp only [List.filter_cons, hd, decide_True, if_true]
    cases hf : List.filter (fun c => decide (c.tokens.head? = some BUILTIN_PATH)) pre with
    | nil => simp
    | cons x xs =>
      have hy : (x :: xs).getLast? = some ((x :: xs).getLast (by simp)) :=
        List.getLast?_eq_getLast _ _
      simp [List.getLast?_cons_cons, hy]
  · simp only [List.filter_cons, hd, decide_False, if_false]
    simp

theorem dispatchOne_paths (sys : Sys) (command : Command) (st : ShellState) :
    (dispatchOne sys command st).1.paths
      = if command.tokens.head? = some BUILTIN_PATH then command.tokens.drop 1
        else st.paths := by
  by_cases hne : command.tokens = []
  · unfold dispatchOne
    simp [hne]
  rcases command_kind command with h | h | h
  · rw [dispatchOne_of_path sys command st h, if_pos h]
  · have hp : command.tokens.head? ≠ some BUILTIN_PATH := by
      rw [h]; decide
    rw [if_neg hp]
    by_cases hlen : command.tokens.length = 2
    · rw [dispatchOne_of_cd sys command st h hlen]; rfl
    · rw [dispatchOne_cdArityError sys command st ⟨h, hlen⟩]; rfl
  · rw [dispatchOne_of_external sys command st hne h, if_neg h.1]

theorem dispatch_paths (sys : Sys) (pre : List Command) (h : ∀ d ∈ pre, ¬ cdArityError d) :
    ∀ st : ShellState, (dispatch sys pre st).1.paths = pathInForce pre st.paths := by
  induction pre with
  | nil => intro st; rfl
  | cons d pre ih =>
    intro st
    have hflag : (dispatchOne sys d st).2 = false := by
      cases hf : (dispatchOne sys d st).2
      · rfl
      · exact absurd ((dispatchOne_flag sys d st).mp hf) (h d (by simp))
    have hp := dispatchOne_paths sys d st
    rcases hd : dispatchOne sys d st with ⟨st1, flag⟩
    rw [hd] at hflag hp
    simp only at hflag hp
    subst hflag
    simp only [dispatch, hd]
    rw [ih (fun e he => h e (by simp [he])) st1, pathInForce_cons, hp]

theorem parsedBatch_cons (line : String) (pre post : List Command) (c : Command)
    (h : parsedBatch line = pre ++ c :: post) :
    line ≠ "" ∧ line ≠ EXIT ∧ parseParallel line = pre ++ c :: post := by
  unfold parsedBatch at h
  by_cases h0 : line = ""
  · rw [if_pos h0] at h; simp at h
  by_cases h1 : line = EXIT
  · rw [if_neg h0, if_pos h1] at h; simp at h
  rw [if_neg h0, if_neg h1] at h
  exact ⟨h0, h1, h⟩

theorem dispatch_trace_extends (sys : Sys) (cs : List Command) (st : ShellState) :
    ∃ es, (dispatch sys cs st).1.trace = st.trace ++ es := by
  obtain ⟨es, h, -, -⟩ := dispatch_pids sys cs st
  exact ⟨es, h⟩

theorem process_command_trace_extends (sys : Sys) (line : String) (paths : List String)
    (h0 : line ≠ "") (h1 : line ≠ EXIT) :
    ∃ ws, (process_command sys line paths).trace
      = (dispatch sys (parseParallel line) ⟨paths, [], []⟩).1.trace ++ ws := by
  unfold process_command
  rw [if_neg h0, if_neg h1]
  rcases hd : dispatch sys (parseParallel line) ⟨paths, [], []⟩ with ⟨st, flag⟩
  cases flag
  · exact ⟨st.childPid.map Event.waitpid, rfl⟩
  · exact ⟨[], by simp [Outcome.trace]⟩

/-! ## Blank lines -/

theorem foldl_parseStep_blank (l : List Char) (h : ∀ c ∈ l, c = ' ' ∨ c = '&') :
    l.foldl parseStep ParseState.init = ParseState.init := by
  induction l with
  | nil => rfl
  | cons c l ih =>
    have hc : parseStep ParseState.init c = ParseState.init := by
      rcases h c (by simp) with e | e <;> subst e <;> decide
    rw [List.foldl_cons, hc]
    exact ih (fun d hd => h d (by simp [hd]))

theorem addToken_ne_nil (tokens : List String) (token : String)
    (h : tokens ≠ [] ∨ token ≠ "") : addToken tokens token ≠ [] := by
  unfold addToken
  split
  · simp
  · rename_i ht
    rcases h with h | h
    · exact h
    · exact absurd h ht

theorem flushTemp_started (st : ParseState) (h : st.started) :
    (flushTemp st).commands ≠ [] ∨ (flushTemp st).currCommand.tokens ≠ [] := by
  rcases h with h | h | h
  · exact Or.inl h
  · exact Or.inr (addToken_ne_nil _ _ (Or.inl h))
  · exact Or.inr (addToken_ne_nil _ _ (Or.inr h))

theorem push_ne_empty (s : String) (c : Char) : s.push c ≠ "" := by
  intro h
  have := congrArg String.data h
  simp [String.data_push] at this

theorem parseStep_started (st : ParseState) (c : Char)
    (h : st.started ∨ (c ≠ ' ' ∧ c ≠ '&')) : (parseStep st c).started := by
  by_cases h1 : c = ' '
  · subst h1
    rw [parseStep_space]
    rcases h with h | h
    · rcases flushTemp_started st h with g | g
      · exact Or.inl g
      · exact Or.inr (Or.inl g)
    · exact absurd rfl h.1
  by_cases h2 : c = '>'
  · subst h2
    rw [parseStep_redir]
    exact Or.inr (Or.inl (addToken_ne_nil _ REDIR (Or.inr (by decide))))
  by_cases h3 : c = '&'
  · subst h3
    rw [parseStep_parallel]
    rcases h with h | h
    · split
      · exact Or.inl (by simp)
      · rename_i hn
        rcases flushTemp_started st h with g | g
        · exact Or.inl g
        · exact absurd g hn
    · exact absurd rfl h.2
  rw [parseStep_other st c h1 h2 h3]
  exact Or.inr (Or.inr (push_ne_empty _ _))

theorem foldl_parseStep_started (l : List Char) :
    ∀ st : ParseState, (st.started ∨ ∃ c ∈ l, c ≠ ' ' ∧ c ≠ '&') →
      (l.foldl parseStep st).started := by
  induction l with
  | nil =>
    intro st h
    rcases h with h | ⟨c, hc, _⟩
    · exact h
    · simp at hc
  | cons c l ih =>
    intro st h
    rw [List.foldl_cons]
    by_cases hc : c ≠ ' ' ∧ c ≠ '&'
    · exact ih _ (Or.inl (parseStep_started st c (Or.inr hc)))
    · rcases h with h | ⟨d, hd, hd2⟩
      · exact ih _ (Or.inl (parseStep_started st c (Or.inl h)))
      · rcases List.mem_cons.mp hd with e | e
        · exact absurd (e ▸ hd2) hc
        · exact ih _ (Or.inr ⟨d, e, hd2⟩)

theorem parseFinish_started (st : ParseState) (h : st.started) : parseFinish st ≠ [] := by
  unfold parseFinish
  simp only
  split
  · simp
  · rename_i hn
    rcases flushTemp_started st h with g | g
    · exact g
    · exact absurd g hn

theorem parseParallel_nil_iff (line : String) :
    parseParallel line = [] ↔ ∀ c ∈ line.data, c = ' ' ∨ c = '&' := by
  constructor
  · intro h c hc
    by_contra hn
    push_neg at hn
    exact parseFinish_started _
      (foldl_parseStep_started line.data ParseState.init (Or.inr ⟨c, hc, hn⟩)) h
  · intro h
    unfold parseParallel
    rw [foldl_parseStep_blank line.data h]
    decide

theorem process_command_of_nil (sys : Sys) (line : String) (paths : List String)
    (h : parseParallel line = []) :
    process_command sys line paths = Outcome.returned paths [] := by
  unfold process_command
  by_cases h0 : line = ""
  · rw [if_pos h0]
  · have h1 : line ≠ EXIT := by
      intro e
      rw [e, parseParallel_exit] at h
      simp at h
    rw [if_neg h0, if_neg h1, h]
    rfl

/-! ## Characters kept by the tokenizer -/

theorem tokenChars_append (a b : List Command) :
    tokenChars (a ++ b) = tokenChars a ++ tokenChars b := by
  simp [tokenChars]

theorem flushTemp_chars (st : ParseState) (h : NUL ∉ st.temp.data) :
    (flushTemp st).chars = st.chars := by
  unfold ParseState.chars flushTemp addToken
  by_cases ht : st.temp = ""
  · simp [ht]
  · simp [ht, c_str_of_not_mem _ h]

theorem parseStep_chars (st : ParseState) (c : Char) (hc : c ≠ NUL)
    (h : NUL ∉ st.temp.data) :
    (parseStep st c).chars
        = st.chars ++ [c].filter (fun x => decide (x ≠ ' ' ∧ x ≠ '&'))
    ∧ NUL ∉ (parseStep st c).temp.data := by
  have hf := flushTemp_chars st h
  by_cases h1 : c = ' '
  · subst h1
    rw [parseStep_space, hf]
    exact ⟨by simp, by simp [flushTemp]⟩
  by_cases h2 : c = '>'
  · subst h2
    rw [parseStep_redir]
    refine ⟨?_, by simp [flushTemp]⟩
    rw [← hf]
    have hr : addToken (flushTemp st).currCommand.tokens REDIR
        = (flushTemp st).currCommand.tokens ++ [REDIR] := by
      unfold addToken
      rw [if_pos (by decide), show c_str REDIR = REDIR from by decide]
    simp only [ParseState.chars, hr, flushTemp_temp]
    simp [REDIR]
  by_cases h3 : c = '&'
  · subst h3
    rw [parseStep_parallel]
    refine ⟨?_, ?_⟩
    · rw [← hf]
      split
      · simp [ParseState.chars, tokenChars_append, tokenChars, Command.fresh, flushTemp_temp]
      · simp
    · split <;> simp [flushTemp]
  rw [parseStep_other st c h1 h2 h3]
  refine ⟨?_, ?_⟩
  · simp [ParseState.chars, String.data_push, h1, h3]
  · simp only [String.data_push, List.mem_append, List.mem_singleton, not_or]
    exact ⟨h, fun e => hc e.symm⟩

theorem foldl_parseStep_chars (l : List Char) (hl : NUL ∉ l) :
    ∀ st : ParseState, NUL ∉ st.temp.data →
      (l.foldl parseStep st).chars
          = st.chars ++ l.filter (fun x => decide (x ≠ ' ' ∧ x ≠ '&'))
      ∧ NUL ∉ (l.foldl parseStep st).temp.data := by
  induction l with
  | nil => intro st h; exact ⟨by simp, h⟩
  | cons c l ih =>
    intro st h
    have hc : c ≠ NUL := fun e => hl (by simp [e])
    have hl2 : NUL ∉ l := fun e => hl (by simp [e])
    obtain ⟨h1, h2⟩ := parseStep_chars st c hc h
    obtain ⟨i1, i2⟩ := ih hl2 (parseStep st c) h2
    refine ⟨?_, i2⟩
    rw [List.foldl_cons, i1, h1, List.append_assoc, ← List.filter_append]
    rfl

theorem parseFinish_chars (st : ParseState) (h : NUL ∉ st.temp.data) :
    tokenChars (parseFinish st) = st.chars := by
  rw [← flushTemp_chars st h]
  unfold parseFinish
  simp only
  split
  · simp [ParseState.chars, tokenChars_append, tokenChars, flushTemp_temp]
  · rename_i hn
    simp only [ne_eq, not_not] at hn
    simp [ParseState.chars, hn, flushTemp_temp]

/-! ## Frame of the search path -/

theorem dispatch_paths_frame (sys : Sys) (cs : List Command) :
    (∀ pre c post, cs = pre ++ c :: post → c.tokens.head? = some BUILTIN_PATH →
      ∃ d ∈ pre, cdArityError d) →
    ∀ st : ShellState, (dispatch sys cs st).1.paths = st.paths := by
  induction cs with
  | nil => intro _ st; rfl
  | cons c rest ih =>
    intro h st
    by_cases hcd : cdArityError c
    · simp only [dispatch, dispatchOne_cdArityError sys c st hcd]
      rfl
    · have hnp : c.tokens.head? ≠ some BUILTIN_PATH := by
        intro hp
        obtain ⟨d, hd, _⟩ := h [] c rest rfl hp
        simp at hd
      have hflag : (dispatchOne sys c st).2 = false := by
        cases hf : (dispatchOne sys c st).2
        · rfl
        · exact absurd ((dispatchOne_flag sys c st).mp hf) hcd
      have hp := dispatchOne_paths sys c st
      rw [if_neg hnp] at hp
      rcases hd : dispatchOne sys c st with ⟨st1, flag⟩
      rw [hd] at hflag hp
      simp only at hflag hp
      subst hflag
      simp only [dispatch, hd]
      rw [← hp]
      apply ih
      intro pre c2 post hsplit hc2
      obtain ⟨d, hd2, hd3⟩ := h (c :: pre) c2 post (by rw [hsplit]; rfl) hc2
      rcases List.mem_cons.mp hd2 with e | e
      · exact absurd (e ▸ hd3) hcd
      · exact ⟨d, e, hd3⟩

/-! ## Spawned process: lemmas -/

theorem child_skip (sys : ChildSys) (name : String) (args : List (Option String))
    (rf : String) (hr : Bool) :
    ∀ (pre rest : List String), (∀ d ∈ pre, sys.access (d ++ "/" ++ name) = false) →
      child sys (some name :: args) rf hr (pre ++ rest)
        = pre.map (fun d => ChildEvent.access (d ++ "/" ++ name) false)
          ++ child sys (some name :: args) rf hr rest := by
  intro pre
  induction pre with
  | nil => intro rest _; rfl
  | cons d pre ih =>
    intro rest h
    have hd : sys.access (d ++ "/" ++ name) = false := h d (by simp)
    have hpre : ∀ e ∈ pre, sys.access (e ++ "/" ++ name) = false :=
      fun e he => h e (by simp [he])
    simp only [List.cons_append, child, hd, List.map_cons, Bool.false_eq_true, if_false,
      List.append_eq]
    rw [ih rest hpre]

theorem runCandidate_execv (sys : ChildSys) (argv : List (Option String)) (rf : String)
    (hr : Bool) (exePath : String) (q : String) (a : List (Option String)) (ok : Bool)
    (h : ChildEvent.execv q a ok ∈ runCandidate sys argv rf hr exePath) : q = exePath := by
  have hredir : ∀ f, ChildEvent.execv q a ok ∉ (redir sys f).1 := by
    intro f
    unfold redir
    split
    · simp
    · split
      · simp
      · split <;> simp
  unfold runCandidate at h
  simp only at h
  cases hr with
  | false =>
    simp only [Bool.false_eq_true, if_false, if_true, List.nil_append] at h
    split at h <;> simp at h <;> exact h.1
  | true =>
    simp only [if_true] at h
    split at h
    · rcases List.mem_append.mp h with h1 | h1
      · exact absurd h1 (hredir rf)
      · split at h1 <;> simp at h1 <;> exact h1.1
    · exact absurd h (hredir rf)

theorem child_none_iff (sys : ChildSys) (name : String) (args : List (Option String))
    (rf : String) (hr : Bool) :
    ∀ paths : List String,
      (∀ d ∈ paths, sys.access (d ++ "/" ++ name) = false)
      ↔ child sys (some name :: args) rf hr paths
          = paths.map (fun d => ChildEvent.access (d ++ "/" ++ name) false)
            ++ [ChildEvent.error, ChildEvent.exit 1] := by
  intro paths
  induction paths with
  | nil => simp [child]
  | cons d rest ih =>
    cases hd : sys.access (d ++ "/" ++ name) with
    | true =>
      simp only [child, hd, if_true, List.map_cons, List.cons_append]
      constructor
      · intro h
        have := h d (by simp)
        rw [hd] at this
        exact absurd this (by decide)
      · intro h
        have := (List.cons.inj h).1
        simp at this
    | false =>
      simp only [child, hd, Bool.false_eq_true, if_false, List.map_cons, List.cons_append]
      constructor
      · intro h
        rw [ih.mp (fun e he => h e (by simp [he]))]
      · intro h e he
        rcases List.mem_cons.mp he with e1 | e1
        · rw [e1]; exact hd
        · exact ih.mpr (List.cons.inj h).2 e e1

/-! ## Theorems for the claims -/

/-- C1 (the code departs from the claim): on the line `ls & cd` the process spawned
for `ls` gets pid 7 and is recorded, then the `cd` arity error returns from
`process_command` (line 151) before the wait loop: the trace ends with the error and
holds no `waitpid` for the recorded pid. -/
theorem process_command_cd_error_leaves_child_unwaited :
    process_command sysOk "ls & cd" ["/bin"]
      = Outcome.returned ["/bin"]
          [Event.fork [some "ls", none] "" false ["/bin"] (some 7), Event.error]
    ∧ recordedPids (process_command sysOk "ls & cd" ["/bin"]).trace = [7]
    ∧ waitedPids (process_command sysOk "ls & cd" ["/bin"]).trace = [] := by
  decide

/-- C2: when the operator occurs exactly once in a token list of length `n ≥ 3`, at
index `n - 2`, `parseRedir` reports no error, sets `hasRedirection`, sets `redirFile`
to the last token and leaves the first `n - 2` tokens. -/
theorem parseRedir_valid_placement (t : List String) (rf : String) (hr : Bool)
    (hlen : 3 ≤ t.length) (hcount : t.count REDIR = 1)
    (hidx : t[t.length - 2]? = some REDIR) :
    (parseRedir ⟨t, rf, hr⟩).2 = []
    ∧ (parseRedir ⟨t, rf, hr⟩).1.hasRedirection = true
    ∧ t[t.length - 1]? = some (parseRedir ⟨t, rf, hr⟩).1.redirFile
    ∧ (parseRedir ⟨t, rf, hr⟩).1.tokens = t.take (t.length - 2) := by
  obtain ⟨a, f, hsplit, hlast⟩ : ∃ a f, t.drop (t.length - 2) = [a, f] ∧
      t[t.length - 1]? = some f := by
    have hl : (t.drop (t.length - 2)).length = 2 := by rw [List.length_drop]; omega
    match hd : t.drop (t.length - 2), hl with
    | [a, f], _ =>
      refine ⟨a, f, rfl, ?_⟩
      have h1 : (t.drop (t.length - 2))[1]? = some f := by rw [hd]; rfl
      rw [List.getElem?_drop] at h1
      rw [← h1]; congr 1; omega
  have ha : a = REDIR := by
    have h0 : (t.drop (t.length - 2))[0]? = some a := by rw [hsplit]; rfl
    rw [List.getElem?_drop, Nat.add_zero, hidx] at h0
    exact (Option.some.inj h0).symm
  subst ha
  have ht : t = t.take (t.length - 2) ++ REDIR :: [f] := by
    rw [← hsplit, List.take_append_drop]
  have hpre : REDIR ∉ t.take (t.length - 2) := by
    have hc := hcount
    rw [ht, List.count_append, List.count_cons_self] at hc
    exact List.count_eq_zero.mp (by omega)
  have hne : t.take (t.length - 2) ≠ [] := by
    intro h
    have := congrArg List.length h
    rw [List.length_take] at this
    simp at this
    omega
  have key := parseRedir_first (t.take (t.length - 2)) [f] rf hr hpre
  rw [← ht] at key
  rw [key, if_neg (by simp [hne])]
  exact ⟨rfl, rfl, hlast, rfl⟩

/-- C2, at the tokens of `echo hi > out`. -/
theorem parseRedir_valid_placement_witness :
    (parseRedir ⟨["echo", "hi", ">", "out"], "", false⟩).2 = []
    ∧ (parseRedir ⟨["echo", "hi", ">", "out"], "", false⟩).1.hasRedirection = true
    ∧ ["echo", "hi", ">", "out"][4 - 1]?
        = some (parseRedir ⟨["echo", "hi", ">", "out"], "", false⟩).1.redirFile
    ∧ (parseRedir ⟨["echo", "hi", ">", "out"], "", false⟩).1.tokens
        = ["echo", "hi", ">", "out"].take (4 - 2) :=
  parseRedir_valid_placement ["echo", "hi", ">", "out"] "" false (by decide) (by decide)
    (by decide)

/-- C3 (the code departs from the claim): the tokens of `ls > >` hold two operators,
so their redirection is malformed, yet `parseRedir` reports no error, keeps `ls` and
marks the command redirected to the file `>`. -/
theorem parseRedir_accepts_trailing_double_operator :
    malformedRedir ["ls", ">", ">"]
    ∧ parseRedir ⟨["ls", ">", ">"], "", false⟩ = (⟨["ls"], ">", true⟩, []) := by
  decide


/-- C4: parsing distributes over the parallel separator: the commands of
`a ++ "&" ++ b` are those of `a` followed by those of `b`. -/
theorem parseParallel_append_parallel (a b : String) :
    parseParallel (a ++ "&" ++ b) = parseParallel a ++ parseParallel b := by
  unfold parseParallel
  have h : (a ++ "&" ++ b).data = a.data ++ '&' :: b.data := by
    simp [String.data_append]
  rw [h]
  exact parseParallel_data a.data b.data

/-- C5: a space inserted immediately before or immediately after an occurrence of
`>` or `&` does not change the result of `parseParallel`; so `echo hi>out` and
`echo hi > out` parse alike. -/
theorem parseParallel_space_at_operator (p s : String) (c : Char) (hc : c = '>' ∨ c = '&') :
    parseParallel (p ++ " " ++ String.singleton c ++ s)
        = parseParallel (p ++ String.singleton c ++ s)
    ∧ parseParallel (p ++ String.singleton c ++ " " ++ s)
        = parseParallel (p ++ String.singleton c ++ s)
    ∧ parseParallel "echo hi>out" = parseParallel "echo hi > out" := by
  have d0 : (p ++ String.singleton c ++ s).data = p.data ++ c :: s.data := by
    simp [String.data_append, String.singleton]
  have d1 : (p ++ " " ++ String.singleton c ++ s).data = p.data ++ ' ' :: c :: s.data := by
    simp [String.data_append, String.singleton]
  have d2 : (p ++ String.singleton c ++ " " ++ s).data = p.data ++ c :: ' ' :: s.data := by
    simp [String.data_append, String.singleton]
  refine ⟨?_, ?_, by decide⟩
  · unfold parseParallel
    rw [d0, d1]
    simp only [List.foldl_append, List.foldl_cons]
    rw [parseStep_space_then _ c hc]
  · unfold parseParallel
    rw [d0, d2]
    simp only [List.foldl_append, List.foldl_cons]
    rw [parseStep_then_space _ c hc]

/-- C5, at `echo hi`, `>` and `out`. -/
theorem parseParallel_space_at_operator_witness :
    ('>' = '>' ∨ '>' = '&')
    ∧ parseParallel ("echo hi" ++ " " ++ String.singleton '>' ++ "out")
        = parseParallel ("echo hi" ++ String.singleton '>' ++ "out")
    ∧ parseParallel ("echo hi" ++ String.singleton '>' ++ " " ++ "out")
        = parseParallel ("echo hi" ++ String.singleton '>' ++ "out")
    ∧ parseParallel "echo hi>out" = parseParallel "echo hi > out" :=
  ⟨Or.inl rfl, parseParallel_space_at_operator "echo hi" "out" '>' (Or.inl rfl)⟩

/-- C6 (as stated, refuted): on the line made of one NUL character the tokenizer
returns a command whose only token is the empty string. -/
theorem parseParallel_nul_gives_empty_token :
    parseParallel ⟨[NUL]⟩ = [⟨[""], "", false⟩] := by
  decide

/-- C6 (amended): every command returned by `parseParallel` has at least one token,
and every token holds no space and no `&`, and holds `>` only when it is the token
`>`; when the line holds no NUL character every token is non-empty. -/
theorem parseParallel_tokens_shape (line : String) (cmd : Command)
    (hcmd : cmd ∈ parseParallel line) :
    cmd.tokens ≠ []
    ∧ ∀ tok ∈ cmd.tokens,
        ' ' ∉ tok.data ∧ '&' ∉ tok.data ∧ ('>' ∈ tok.data → tok = ">")
        ∧ (NUL ∉ line.data → tok ≠ "") :=
  parseFinish_wf (NUL ∉ line.data) _
    (foldl_parseStep_wf _ line.data id _ (init_wf _)) cmd hcmd

/-- C6 (amended), at the second command of `ls & cd`. -/
theorem parseParallel_tokens_shape_witness :
    (⟨["cd"], "", false⟩ : Command) ∈ parseParallel "ls & cd"
    ∧ (["cd"] : List String) ≠ []
    ∧ ∀ tok ∈ (["cd"] : List String),
        ' ' ∉ tok.data ∧ '&' ∉ tok.data ∧ ('>' ∈ tok.data → tok = ">")
        ∧ (NUL ∉ ("ls & cd" : String).data → tok ≠ "") :=
  ⟨by decide, parseParallel_tokens_shape "ls & cd" ⟨["cd"], "", false⟩ (by decide)⟩

/-- C7 (the code departs from the claim): the line `ls >` parses to one command whose
redirection is malformed; `process_command` reports the error once and clears the
tokens, but then still forks: the new process gets an argument vector that holds
only the null terminator, and its pid is recorded and waited on. -/
theorem process_command_spawns_malformed_redirection :
    parseParallel "ls >" = [⟨["ls", ">"], "", false⟩]
    ∧ malformedRedir ["ls", ">"]
    ∧ process_command sysOk "ls >" ["/bin"]
        = Outcome.returned ["/bin"]
            [Event.error, Event.fork [none] "" false ["/bin"] (some 7), Event.waitpid 7] := by
  decide

/-- C8 (as stated, refuted): in `cd a > & ls` the first command has a malformed
redirection; with it the sibling `ls` is never spawned, without it (`ls`) it is.
In `path /usr > & ls` the sibling is spawned with the search path `/usr`, `>`,
without the malformed command with `/bin`. -/
theorem malformed_builtin_affects_sibling :
    parseParallel "cd a > & ls" = [⟨["cd", "a", ">"], "", false⟩, ⟨["ls"], "", false⟩]
    ∧ malformedRedir ["cd", "a", ">"]
    ∧ parseParallel "ls" = [⟨["ls"], "", false⟩]
    ∧ actions (process_command sysOk "cd a > & ls" ["/bin"]).trace = []
    ∧ actions (process_command sysOk "ls" ["/bin"]).trace
        = [Action.spawn [some "ls", none] "" false ["/bin"]]
    ∧ parseParallel "path /usr > & ls"
        = [⟨["path", "/usr", ">"], "", false⟩, ⟨["ls"], "", false⟩]
    ∧ malformedRedir ["path", "/usr", ">"]
    ∧ actions (process_command sysOk "path /usr > & ls" ["/bin"]).trace
        = [Action.setPaths ["/usr", ">"],
           Action.spawn [some "ls", none] "" false ["/usr", ">"]] := by
  decide

/-- C8 (amended): let a line parse to `pre ++ m :: post`, where `m` has a malformed
redirection and its first token is neither `path` nor `cd`, and let another line,
not the literal `exit`, parse to `pre ++ post`.  Then the attempts (spawns with
their tokens, redirection target and search path, search-path updates, directory
changes) made for the first line are those made for the second, in the same
order, with at most the one spawn of `m` inserted; this holds whatever the
system answers in either run. -/
theorem malformed_external_leaves_siblings (sys sys2 : Sys) (line line2 : String)
    (paths : List String) (pre post : List Command) (m : Command)
    (hline : parseParallel line = pre ++ m :: post)
    (hline2 : parseParallel line2 = pre ++ post)
    (hexit : line2 ≠ EXIT)
    (hmal : malformedRedir m.tokens)
    (hpath : m.tokens.head? ≠ some BUILTIN_PATH)
    (hcd : m.tokens.head? ≠ some BUILTIN_CD) :
    ∃ before after : List Action,
      actions (process_command sys2 line2 paths).trace = before ++ after
      ∧ (actions (process_command sys line paths).trace = before ++ after
         ∨ ∃ ps, actions (process_command sys line paths).trace
              = before ++ Action.spawn ((parseRedir m).1.tokens.map some ++ [none])
                  (parseRedir m).1.redirFile (parseRedir m).1.hasRedirection ps :: after) := by
  have hne : m.tokens ≠ [] := by
    intro h
    have := hmal.1
    rw [h] at this
    simp at this
  have hlexit : line ≠ EXIT := by
    intro h
    rw [h, parseParallel_exit] at hline
    have hm : m ∈ [(⟨["exit"], "", false⟩ : Command)] := by rw [hline]; simp
    have hm2 : m = ⟨["exit"], "", false⟩ := by simpa using hm
    rw [hm2] at hmal
    exact absurd hmal (by decide)
  rw [actions_process_command sys line paths hlexit,
    actions_process_command sys2 line2 paths hexit, hline, hline2,
    batchActions_append pre (m :: post) paths, batchActions_append pre post paths]
  cases hf : (batchActions pre paths).2.2
  · refine ⟨(batchActions pre paths).1,
      (batchActions post (batchActions pre paths).2.1).1, ?_,
      Or.inr ⟨(batchActions pre paths).2.1, ?_⟩⟩
    · simp
    · simp only [Bool.false_eq_true, if_false, batchActions,
        commandActions_external m _ hne hpath hcd]
      rfl
  · exact ⟨(batchActions pre paths).1, [], by simp, Or.inl (by simp)⟩

/-- C8 (amended), at `ls & wc > & pwd` and `ls & pwd`. -/
theorem malformed_external_leaves_siblings_witness :
    ∃ before after : List Action,
      actions (process_command sysOk "ls & pwd" ["/bin"]).trace = before ++ after
      ∧ (actions (process_command sysOk "ls & wc > & pwd" ["/bin"]).trace = before ++ after
         ∨ ∃ ps, actions (process_command sysOk "ls & wc > & pwd" ["/bin"]).trace
              = before ++ Action.spawn
                  ((parseRedir ⟨["wc", ">"], "", false⟩).1.tokens.map some ++ [none])
                  (parseRedir ⟨["wc", ">"], "", false⟩).1.redirFile
                  (parseRedir ⟨["wc", ">"], "", false⟩).1.hasRedirection ps :: after) :=
  malformed_external_leaves_siblings sysOk sysOk "ls & wc > & pwd" "ls & pwd" ["/bin"]
    [⟨["ls"], "", false⟩] [⟨["pwd"], "", false⟩] ⟨["wc", ">"], "", false⟩
    (by decide) (by decide) (by decide) (by decide) (by decide) (by decide)

/-- C9: when a line holds a `cd` command whose token count is not 2, let `c` be the
first such command and `pre` the commands before it.  `process_command` dispatches
`pre` completely, reports the error once for `c` and returns: its trace is the
trace of `pre` followed by that single error, so there is no change-directory
attempt for `c` and nothing at all (no spawn, no search-path change, no directory
change) for the commands after `c`; the search path is the one `pre` left. -/
theorem process_command_cd_arity_error (sys : Sys) (line : String) (paths : List String)
    (h : ∃ c ∈ parseParallel line, cdArityError c) :
    ∃ pre c post, parseParallel line = pre ++ c :: post
      ∧ cdArityError c
      ∧ (∀ d ∈ pre, ¬ cdArityError d)
      ∧ (dispatch sys pre ⟨paths, [], []⟩).2 = false
      ∧ process_command sys line paths
          = Outcome.returned (dispatch sys pre ⟨paths, [], []⟩).1.paths
              ((dispatch sys pre ⟨paths, [], []⟩).1.trace ++ [Event.error]) := by
  obtain ⟨pre, c, post, hsplit, hc, hpre⟩ := exists_first_split cdArityError _ h
  have hflag := dispatch_flag_false sys pre hpre ⟨paths, [], []⟩
  refine ⟨pre, c, post, hsplit, hc, hpre, hflag, ?_⟩
  have h0 : line ≠ "" := by
    intro e
    rw [e, parseParallel_empty] at hsplit
    simp at hsplit
  have h1 : line ≠ EXIT := by
    intro e
    rw [e, parseParallel_exit] at hsplit
    have hm : c ∈ [(⟨["exit"], "", false⟩ : Command)] := by rw [hsplit]; simp
    have hm2 : c = ⟨["exit"], "", false⟩ := by simpa using hm
    rw [hm2] at hc
    exact absurd hc (by decide)
  unfold process_command
  rw [if_neg h0, if_neg h1, hsplit, dispatch_append sys pre (c :: post) _ hflag]
  simp only [dispatch, dispatchOne_cdArityError sys c _ hc]
  rfl

/-- C9, at the line `ls & cd & pwd`. -/
theorem process_command_cd_arity_error_witness :
    ∃ pre c post, parseParallel "ls & cd & pwd" = pre ++ c :: post
      ∧ cdArityError c
      ∧ (∀ d ∈ pre, ¬ cdArityError d)
      ∧ (dispatch sysOk pre ⟨["/bin"], [], []⟩).2 = false
      ∧ process_command sysOk "ls & cd & pwd" ["/bin"]
          = Outcome.returned (dispatch sysOk pre ⟨["/bin"], [], []⟩).1.paths
              ((dispatch sysOk pre ⟨["/bin"], [], []⟩).1.trace ++ [Event.error]) :=
  process_command_cd_arity_error sysOk "ls & cd & pwd" ["/bin"]
    ⟨⟨["cd"], "", false⟩, by decide, by decide⟩

/-- C10: for a command whose first token is `path`, the loop body replaces the search
path, whatever it was, by the command's tokens after the first, in order; it adds
no event but that replacement and records no pid, so no process is spawned, and the
loop goes on.  For every token list `set_paths` returns the list without its first
element. -/
theorem dispatchOne_path (sys : Sys) (command : Command) (st : ShellState)
    (h : command.tokens.head? = some BUILTIN_PATH) :
    dispatchOne sys command st
        = (⟨command.tokens.drop 1, st.childPid,
            st.trace ++ [Event.setPaths (command.tokens.drop 1)]⟩, false)
    ∧ ∀ tokens : List String, set_paths tokens = tokens.drop 1 := by
  refine ⟨?_, set_paths_eq_drop⟩
  unfold dispatchOne
  split
  · rename_i h0; rw [h0] at h; simp at h
  · rename_i tok0 tl h0
    have ht : tok0 = BUILTIN_PATH := by rw [h0] at h; simpa using h
    subst ht
    rw [if_pos rfl, set_paths_eq_drop]

/-- C10, at `path /usr/bin /bin` with the previous search path `/sbin`. -/
theorem dispatchOne_path_witness :
    (["path", "/usr/bin", "/bin"] : List String).head? = some BUILTIN_PATH
    ∧ dispatchOne sysOk ⟨["path", "/usr/bin", "/bin"], "", false⟩ ⟨["/sbin"], [], []⟩
        = (⟨["/usr/bin", "/bin"], [], [Event.setPaths ["/usr/bin", "/bin"]]⟩, false)
    ∧ ∀ tokens : List String, set_paths tokens = tokens.drop 1 :=
  ⟨rfl, dispatchOne_path sysOk ⟨["path", "/usr/bin", "/bin"], "", false⟩ ⟨["/sbin"], [], []⟩ rfl⟩

/-- C11: path resolution in the spawned process is first-match-wins.  When `dir` is
the first directory of the search path whose candidate `dir/name` is executable,
the process tests the candidates of the directories before it, in order, then
that candidate, and goes on with it alone (redirection, then `execv`): any `execv`
it makes is on that candidate.  The process tests every candidate in vain and
ends with one error and `exit(1)`, without `execv`, exactly when no directory has
an executable candidate; with an empty search path it does so at once. -/
theorem child_first_match (sys : ChildSys) (name : String) (args : List (Option String))
    (rf : String) (hr : Bool) (paths : List String) :
    (∀ pre dir post, paths = pre ++ dir :: post →
      (∀ d ∈ pre, sys.access (d ++ "/" ++ name) = false) →
      sys.access (dir ++ "/" ++ name) = true →
        child sys (some name :: args) rf hr paths
          = pre.map (fun d => ChildEvent.access (d ++ "/" ++ name) false)
            ++ ChildEvent.access (dir ++ "/" ++ name) true
              :: runCandidate sys (some name :: args) rf hr (dir ++ "/" ++ name)
        ∧ ∀ q a ok, ChildEvent.execv q a ok ∈ child sys (some name :: args) rf hr paths →
            q = dir ++ "/" ++ name)
    ∧ ((∀ d ∈ paths, sys.access (d ++ "/" ++ name) = false)
        ↔ child sys (some name :: args) rf hr paths
            = paths.map (fun d => ChildEvent.access (d ++ "/" ++ name) false)
              ++ [ChildEvent.error, ChildEvent.exit 1])
    ∧ child sys (some name :: args) rf hr [] = [ChildEvent.error, ChildEvent.exit 1] := by
  refine ⟨?_, child_none_iff sys name args rf hr paths, rfl⟩
  intro pre dir post hsplit hpre hdir
  have hrun : child sys (some name :: args) rf hr paths
      = pre.map (fun d => ChildEvent.access (d ++ "/" ++ name) false)
        ++ ChildEvent.access (dir ++ "/" ++ name) true
          :: runCandidate sys (some name :: args) rf hr (dir ++ "/" ++ name) := by
    rw [hsplit, child_skip sys name args rf hr pre (dir :: post) hpre]
    simp only [child, hdir, if_true]
  refine ⟨hrun, ?_⟩
  intro q a ok hmem
  rw [hrun] at hmem
  rcases List.mem_append.mp hmem with h1 | h1
  · simp at h1
  · rcases List.mem_cons.mp h1 with h2 | h2
    · simp at h2
    · exact runCandidate_execv sys _ rf hr _ q a ok h2

/-- C11, at the search path `/sbin`, `/bin`, `/usr/bin` and the program `ls`, where
`/bin/ls` and `/usr/bin/ls` are executable: `/bin/ls` is run. -/
theorem child_first_match_witness :
    child childSysOk [some "ls", none] "" false ["/sbin", "/bin", "/usr/bin"]
      = [ChildEvent.access "/sbin/ls" false, ChildEvent.access "/bin/ls" true,
         ChildEvent.execv "/bin/ls" [some "ls", none] true] :=
  ((child_first_match childSysOk "ls" [none] "" false ["/sbin", "/bin", "/usr/bin"]).1
    ["/sbin"] "/bin" ["/usr/bin"] rfl (by decide) (by decide)).1

/-- C12: on a line in which no command has a malformed redirection and no `cd`
command has a token count other than 2, the forks of `process_command` are one per
command it parsed whose first token is neither `path` nor `cd`, in the order of
those commands, each with the tokens and the redirection target the specification
gives for that command; `echo a & echo b > out.txt` gives `echo a` without
redirection, then `echo b` redirected to `out.txt`. -/
theorem process_command_spawns (sys : Sys) (line : String) (paths : List String)
    (hmal : ∀ c ∈ parseParallel line, ¬ malformedRedir c.tokens)
    (hcd : ∀ c ∈ parseParallel line, ¬ cdArityError c) :
    spawnFields (process_command sys line paths).trace
        = ((parsedBatch line).filter fun c => isExternal c).map specSpawn
    ∧ spawnFields (process_command sysOk "echo a & echo b > out.txt" ["/bin"]).trace
        = [([some "echo", some "a", none], "", false),
           ([some "echo", some "b", none], "out.txt", true)] := by
  refine ⟨?_, by decide⟩
  unfold process_command parsedBatch
  by_cases h0 : line = ""
  · simp [h0, Outcome.trace, spawnFields]
  by_cases h1 : line = EXIT
  · simp [h1, EXIT, Outcome.trace, spawnFields]
  rw [if_neg h0, if_neg h1, if_neg h0, if_neg h1]
  have h := dispatch_spawnFields sys (parseParallel line) (parseParallel_tokens_ne_nil line)
    (parseParallel_plain line) hmal hcd ⟨paths, [], []⟩
  rcases hd : dispatch sys (parseParallel line) ⟨paths, [], []⟩ with ⟨st, flag⟩
  rw [hd] at h
  simp only [spawnFields, List.filterMap_nil, List.nil_append] at h
  cases flag
  · simp only [Outcome.trace]
    rw [spawnFields_append, spawnFields_waitpid, List.append_nil]
    exact h
  · exact h

/-- C12, at the line `ls & path /usr & pwd > f`. -/
theorem process_command_spawns_witness :
    spawnFields (process_command sysOk "ls & path /usr & pwd > f" ["/bin"]).trace
        = ((parsedBatch "ls & path /usr & pwd > f").filter fun c => isExternal c).map specSpawn
    ∧ spawnFields (process_command sysOk "echo a & echo b > out.txt" ["/bin"]).trace
        = [([some "echo", some "a", none], "", false),
           ([some "echo", some "b", none], "out.txt", true)] :=
  process_command_spawns sysOk "ls & path /usr & pwd > f" ["/bin"] (by decide) (by decide)

/-- C13: `process_command` ends the shell exactly when the line is `exit`, and then
with status 0, whatever the system and the search path; it has then parsed nothing
and its trace is empty.  The lines `exit ` (trailing space), ` exit` and `exit 1` do
not end the shell. -/
theorem process_command_exit_iff (sys : Sys) (line : String) (paths : List String) :
    (∀ status, process_command sys line paths = Outcome.exited status
        ↔ (line = "exit" ∧ status = 0))
    ∧ process_command sys "exit" paths = Outcome.exited 0
    ∧ parsedBatch "exit" = []
    ∧ (process_command sys "exit" paths).trace = []
    ∧ (∀ status, process_command sys "exit " paths ≠ Outcome.exited status)
    ∧ (∀ status, process_command sys " exit" paths ≠ Outcome.exited status)
    ∧ (∀ status, process_command sys "exit 1" paths ≠ Outcome.exited status) := by
  have key : ∀ (l : String) (status : Nat),
      process_command sys l paths = Outcome.exited status ↔ (l = "exit" ∧ status = 0) := by
    intro l status
    unfold process_command
    by_cases h0 : l = ""
    · simp [h0]
    by_cases h1 : l = EXIT
    · rw [if_neg h0, if_pos h1]
      constructor
      · intro h
        exact ⟨h1, (Outcome.exited.inj h).symm⟩
      · rintro ⟨_, hs⟩
        rw [hs]
    · rw [if_neg h0, if_neg h1]
      constructor
      · intro h
        split at h <;> exact absurd h (by simp)
      · rintro ⟨hl, _⟩
        exact absurd hl h1
  refine ⟨key line, (key "exit" 0).mpr ⟨rfl, rfl⟩, by decide, ?_, ?_, ?_, ?_⟩
  · rw [(key "exit" 0).mpr ⟨rfl, rfl⟩]; rfl
  · intro status h
    exact absurd ((key _ status).mp h).1 (by decide)
  · intro status h
    exact absurd ((key _ status).mp h).1 (by decide)
  · intro status h
    exact absurd ((key _ status).mp h).1 (by decide)

/-- C14: let `c` be an external command of the batch `process_command` parses from a
line, reached by the dispatch loop (no `cd` arity error among the commands `pre`
before it).  After the events of `pre` and the errors of its own redirection
extraction, `c` is forked with the search path set by the last `path` command of
`pre`, or with the search path of the call when `pre` has none; the process
created runs `child` on that search path. -/
theorem spawn_sees_path_in_force (sys : Sys) (csys : ChildSys) (line : String)
    (paths : List String) (pre post : List Command) (c : Command)
    (hparse : parsedBatch line = pre ++ c :: post) (hext : isExternal c)
    (hpre : ∀ d ∈ pre, ¬ cdArityError d) :
    ∃ result rest,
      (process_command sys line paths).trace
        = (dispatch sys pre ⟨paths, [], []⟩).1.trace ++ (parseRedir c).2
          ++ Event.fork ((parseRedir c).1.tokens.map some ++ [none]) (parseRedir c).1.redirFile
              (parseRedir c).1.hasRedirection (pathInForce pre paths) result :: rest
      ∧ ∀ pid, Event.spawned csys
            (Event.fork ((parseRedir c).1.tokens.map some ++ [none])
              (parseRedir c).1.redirFile (parseRedir c).1.hasRedirection
              (pathInForce pre paths) (some pid))
          = some (child csys ((parseRedir c).1.tokens.map some ++ [none])
              (parseRedir c).1.redirFile (parseRedir c).1.hasRedirection
              (pathInForce pre paths)) := by
  obtain ⟨h0, h1, hp⟩ := parsedBatch_cons line pre post c hparse
  have hne : c.tokens ≠ [] := parseParallel_tokens_ne_nil line c (by rw [hp]; simp)
  obtain ⟨ws, hws⟩ := process_command_trace_extends sys line paths h0 h1
  have hflag := dispatch_flag_false sys pre hpre ⟨paths, [], []⟩
  have hpaths := dispatch_paths sys pre hpre ⟨paths, [], []⟩
  simp only at hpaths
  rw [hws, hp, dispatch_append sys pre (c :: post) _ hflag]
  simp only [dispatch, dispatchOne_of_external sys c _ hne hext]
  generalize (dispatch sys pre ⟨paths, [], []⟩).1 = st1 at hpaths ⊢
  obtain ⟨es, hes⟩ := dispatch_trace_extends sys post
    ⟨st1.paths, st1.childPid ++ (sys.fork (st1.trace ++ (parseRedir c).2)).toList,
      st1.trace ++ (parseRedir c).2
        ++ Event.fork ((parseRedir c).1.tokens.map some ++ [none])
            (parseRedir c).1.redirFile (parseRedir c).1.hasRedirection st1.paths
            (sys.fork (st1.trace ++ (parseRedir c).2))
          :: if (sys.fork (st1.trace ++ (parseRedir c).2)).isSome = true then []
             else [Event.error]⟩
  rw [hes, hpaths]
  refine ⟨sys.fork (st1.trace ++ (parseRedir c).2),
    (if (sys.fork (st1.trace ++ (parseRedir c).2)).isSome = true then []
      else [Event.error]) ++ es ++ ws, ?_, fun _ => rfl⟩
  simp only [List.append_assoc, List.cons_append]

/-- C14, at `path /usr/bin & ls` with the search path `/bin` at the start. -/
theorem spawn_sees_path_in_force_witness :
    ∃ result rest,
      (process_command sysOk "path /usr/bin & ls" ["/bin"]).trace
        = (dispatch sysOk [⟨["path", "/usr/bin"], "", false⟩] ⟨["/bin"], [], []⟩).1.trace
          ++ (parseRedir ⟨["ls"], "", false⟩).2
          ++ Event.fork ((parseRedir ⟨["ls"], "", false⟩).1.tokens.map some ++ [none])
              (parseRedir ⟨["ls"], "", false⟩).1.redirFile
              (parseRedir ⟨["ls"], "", false⟩).1.hasRedirection
              (pathInForce [⟨["path", "/usr/bin"], "", false⟩] ["/bin"]) result :: rest
      ∧ ∀ pid, Event.spawned childSysOk
            (Event.fork ((parseRedir ⟨["ls"], "", false⟩).1.tokens.map some ++ [none])
              (parseRedir ⟨["ls"], "", false⟩).1.redirFile
              (parseRedir ⟨["ls"], "", false⟩).1.hasRedirection
              (pathInForce [⟨["path", "/usr/bin"], "", false⟩] ["/bin"]) (some pid))
          = some (child childSysOk
              ((parseRedir ⟨["ls"], "", false⟩).1.tokens.map some ++ [none])
              (parseRedir ⟨["ls"], "", false⟩).1.redirFile
              (parseRedir ⟨["ls"], "", false⟩).1.hasRedirection
              (pathInForce [⟨["path", "/usr/bin"], "", false⟩] ["/bin"])) :=
  spawn_sees_path_in_force sysOk childSysOk "path /usr/bin & ls" ["/bin"]
    [⟨["path", "/usr/bin"], "", false⟩] [] ⟨["ls"], "", false⟩ (by decide) (by decide)
    (by decide)

/-- C15 (as stated, refuted): the line `ls >` followed by a NUL character is
tokenized to `ls`, `>` and the empty token; `parseRedir` marks the command
redirected with an empty `redirFile`. -/
theorem parseRedir_empty_redirFile :
    parseParallel ⟨"ls >".data ++ [NUL]⟩ = [⟨["ls", ">", ""], "", false⟩]
    ∧ parseRedir ⟨["ls", ">", ""], "", false⟩ = (⟨["ls"], "", true⟩, []) := by
  decide

/-- C15 (amended): for a command produced by the tokenizer, after `parseRedir`: if
`hasRedirection` is set, the remaining tokens are non-empty, hold no `>` and are
exactly the tokens before the operator, `redirFile` is the token after it, and
`redirFile` is non-empty when the line holds no NUL character; if `hasRedirection`
is not set, `redirFile` is empty. -/
theorem parseRedir_invariant (line : String) (cmd : Command)
    (hcmd : cmd ∈ parseParallel line) :
    ((parseRedir cmd).1.hasRedirection = true →
        (NUL ∉ line.data → (parseRedir cmd).1.redirFile ≠ "")
        ∧ (parseRedir cmd).1.tokens ≠ []
        ∧ REDIR ∉ (parseRedir cmd).1.tokens
        ∧ cmd.tokens = (parseRedir cmd).1.tokens ++ [REDIR, (parseRedir cmd).1.redirFile])
    ∧ ((parseRedir cmd).1.hasRedirection = false → (parseRedir cmd).1.redirFile = "") := by
  obtain ⟨hrf, hhr⟩ := parseParallel_plain line cmd hcmd
  have hwf := (parseFinish_wf (NUL ∉ line.data) _
    (foldl_parseStep_wf _ line.data id _ (init_wf _)) cmd hcmd).2
  rcases cmd with ⟨t, rf, hr⟩
  simp only at hrf hhr hwf
  subst hrf hhr
  by_cases hmem : REDIR ∈ t
  · obtain ⟨a, c, b, hsplit, hc, ha⟩ :=
      exists_first_split (fun x : String => x = REDIR) t ⟨REDIR, hmem, rfl⟩
    subst hc
    have hna : REDIR ∉ a := fun hm => ha REDIR hm rfl
    subst hsplit
    rw [parseRedir_first a b "" false hna]
    by_cases hcond : a = [] ∨ b.length ≠ 1
    · rw [if_pos hcond]
      exact ⟨fun h => absurd h (by simp), fun _ => rfl⟩
    · rw [if_neg hcond]
      push_neg at hcond
      obtain ⟨hane, hb⟩ := hcond
      match b, hb with
      | [f], _ =>
        refine ⟨fun _ => ⟨fun hz => ?_, hane, hna, rfl⟩, fun h => absurd h (by simp)⟩
        exact (hwf f (by simp)).2.2.2 hz
  · rw [parseRedir_of_not_mem _ hmem]
    exact ⟨fun h => absurd h (by simp), fun _ => rfl⟩

/-- C15 (amended), at the command of `ls > out`. -/
theorem parseRedir_invariant_witness :
    (⟨["ls", ">", "out"], "", false⟩ : Command) ∈ parseParallel "ls > out"
    ∧ ((parseRedir ⟨["ls", ">", "out"], "", false⟩).1.hasRedirection = true →
        (NUL ∉ ("ls > out" : String).data →
          (parseRedir ⟨["ls", ">", "out"], "", false⟩).1.redirFile ≠ "")
        ∧ (parseRedir ⟨["ls", ">", "out"], "", false⟩).1.tokens ≠ []
        ∧ REDIR ∉ (parseRedir ⟨["ls", ">", "out"], "", false⟩).1.tokens
        ∧ (["ls", ">", "out"] : List String)
            = (parseRedir ⟨["ls", ">", "out"], "", false⟩).1.tokens
              ++ [REDIR, (parseRedir ⟨["ls", ">", "out"], "", false⟩).1.redirFile])
    ∧ ((parseRedir ⟨["ls", ">", "out"], "", false⟩).1.hasRedirection = false →
        (parseRedir ⟨["ls", ">", "out"], "", false⟩).1.redirFile = "") :=
  ⟨by decide, parseRedir_invariant "ls > out" ⟨["ls", ">", "out"], "", false⟩ (by decide)⟩

/-- C16: for a command whose tokens are `cd` and `d`, the loop body makes one
`chdir(d)` and nothing else, except that it reports the error when that call
fails; it forks nothing and records no pid, leaves the search path alone, and the
loop goes on with the next command. -/
theorem dispatchOne_cd_attempt (sys : Sys) (d : String) (rf : String) (hr : Bool)
    (st : ShellState) :
    dispatchOne sys ⟨[BUILTIN_CD, d], rf, hr⟩ st
      = (⟨st.paths, st.childPid,
          st.trace ++ Event.chdir d (sys.chdir st.trace d)
            :: if sys.chdir st.trace d = true then [] else [Event.error]⟩, false) :=
  dispatchOne_of_cd sys ⟨[BUILTIN_CD, d], rf, hr⟩ st rfl rfl

/-- C17: `parseParallel` returns the empty batch exactly for the lines made of spaces
and `&` only; on an all-space line, and on any line with an empty batch,
`process_command` returns with an empty trace (no spawn, no error) and the search
path it was given. -/
theorem parseParallel_empty_batch (line : String) :
    (parseParallel line = [] ↔ ∀ c ∈ line.data, c = ' ' ∨ c = '&')
    ∧ ((∀ c ∈ line.data, c = ' ') →
        parseParallel line = []
        ∧ ∀ (sys : Sys) (paths : List String),
            process_command sys line paths = Outcome.returned paths [])
    ∧ (parseParallel line = [] →
        ∀ (sys : Sys) (paths : List String),
          process_command sys line paths = Outcome.returned paths []) := by
  refine ⟨parseParallel_nil_iff line, ?_, fun h sys paths => process_command_of_nil sys line paths h⟩
  intro h
  have hnil : parseParallel line = [] :=
    (parseParallel_nil_iff line).mpr (fun c hc => Or.inl (h c hc))
  exact ⟨hnil, fun sys paths => process_command_of_nil sys line paths hnil⟩

/-- C17, at the line of two spaces. -/
theorem parseParallel_empty_batch_witness :
    (∀ c ∈ ("  " : String).data, c = ' ')
    ∧ parseParallel "  " = []
    ∧ ∀ (sys : Sys) (paths : List String),
        process_command sys "  " paths = Outcome.returned paths [] :=
  ⟨by decide, (parseParallel_empty_batch "  ").2.1 (by decide)⟩

/-- C18 (as stated, refuted): for `path a > b` the search path becomes `a`, `>`, `b`,
and `cd d > f`, with its four tokens, is a `cd` arity error: no change of directory
is attempted. -/
theorem builtin_keeps_redirection_tokens :
    process_command sysOk "path a > b" ["/bin"]
      = Outcome.returned ["a", ">", "b"] [Event.setPaths ["a", ">", "b"]]
    ∧ process_command sysOk "cd d > f" ["/bin"]
      = Outcome.returned ["/bin"] [Event.error] := by
  decide

/-- C18 (amended): redirection extraction is not applied to built-in commands; the
loop body uses their tokens as the tokenizer left them, operator and file name
included.  For a `path` command the search path becomes all tokens after the
first; a `cd` command is judged on its full token count: with a count other than 2
it is an arity error, with 2 the second token is the directory. -/
theorem dispatchOne_builtin_tokens (sys : Sys) (command : Command) (st : ShellState) :
    (command.tokens.head? = some BUILTIN_PATH →
      dispatchOne sys command st
        = (⟨command.tokens.drop 1, st.childPid,
            st.trace ++ [Event.setPaths (command.tokens.drop 1)]⟩, false))
    ∧ (command.tokens.head? = some BUILTIN_CD → command.tokens.length ≠ 2 →
        dispatchOne sys command st = (⟨st.paths, st.childPid, st.trace ++ [Event.error]⟩, true))
    ∧ (command.tokens.head? = some BUILTIN_CD → command.tokens.length = 2 →
        dispatchOne sys command st
          = (⟨st.paths, st.childPid,
              st.trace ++ Event.chdir (command.tokens.getD 1 "")
                  (sys.chdir st.trace (command.tokens.getD 1 ""))
                :: if sys.chdir st.trace (command.tokens.getD 1 "") = true then []
                   else [Event.error]⟩, false)) :=
  ⟨fun h => dispatchOne_of_path sys command st h,
   fun h hlen => dispatchOne_cdArityError sys command st ⟨h, hlen⟩,
   fun h hlen => dispatchOne_of_cd sys command st h hlen⟩

/-- C18 (amended), at the commands of `path a > b`, `cd d > f` and `cd >`. -/
theorem dispatchOne_builtin_tokens_witness :
    dispatchOne sysOk ⟨["path", "a", ">", "b"], "", false⟩ ⟨["/bin"], [], []⟩
        = (⟨["a", ">", "b"], [], [Event.setPaths ["a", ">", "b"]]⟩, false)
    ∧ dispatchOne sysOk ⟨["cd", "d", ">", "f"], "", false⟩ ⟨["/bin"], [], []⟩
        = (⟨["/bin"], [], [Event.error]⟩, true)
    ∧ dispatchOne sysOk ⟨["cd", ">"], "", false⟩ ⟨["/bin"], [], []⟩
        = (⟨["/bin"], [], [Event.chdir ">" true]⟩, false) :=
  ⟨(dispatchOne_builtin_tokens sysOk ⟨["path", "a", ">", "b"], "", false⟩
      ⟨["/bin"], [], []⟩).1 rfl,
   (dispatchOne_builtin_tokens sysOk ⟨["cd", "d", ">", "f"], "", false⟩
      ⟨["/bin"], [], []⟩).2.1 rfl (by decide),
   (dispatchOne_builtin_tokens sysOk ⟨["cd", ">"], "", false⟩
      ⟨["/bin"], [], []⟩).2.2 rfl rfl⟩

/-- C19 (as stated, refuted): on the line `a`, NUL, `b` the only token is `a`: the
characters from the NUL on are lost. -/
theorem parseParallel_loses_after_nul :
    tokenChars (parseParallel ⟨['a', NUL, 'b']⟩) = ['a']
    ∧ (⟨['a', NUL, 'b']⟩ : String).data.filter (fun x => decide (x ≠ ' ' ∧ x ≠ '&'))
        = ['a', NUL, 'b'] := by
  decide

/-- C19 (amended): on a line without NUL character the tokenizer loses and invents
no character: the characters of all tokens of all commands, in order, are those of
the line without its spaces and `&` characters. -/
theorem parseParallel_keeps_chars (line : String) (h : NUL ∉ line.data) :
    tokenChars (parseParallel line)
      = line.data.filter (fun x => decide (x ≠ ' ' ∧ x ≠ '&')) := by
  obtain ⟨h1, h2⟩ := foldl_parseStep_chars line.data h ParseState.init (by decide)
  unfold parseParallel
  rw [parseFinish_chars _ h2, h1]
  simp [ParseState.chars, ParseState.init, tokenChars, Command.fresh]

/-- C19 (amended), at the line `ls -l>out & cd`. -/
theorem parseParallel_keeps_chars_witness :
    NUL ∉ ("ls -l>out & cd" : String).data
    ∧ tokenChars (parseParallel "ls -l>out & cd")
        = ("ls -l>out & cd" : String).data.filter (fun x => decide (x ≠ ' ' ∧ x ≠ '&')) :=
  ⟨by decide, parseParallel_keeps_chars "ls -l>out & cd" (by decide)⟩

/-- C20: when every command of the line whose first token is `path` comes after a
`cd` arity error (in particular when the line has no such command),
`process_command` either ends the shell (the line is `exit`) or returns with the
search path it was given. -/
theorem process_command_path_frame (sys : Sys) (line : String) (paths : List String)
    (h : ∀ pre c post, parseParallel line = pre ++ c :: post →
      c.tokens.head? = some BUILTIN_PATH → ∃ d ∈ pre, cdArityError d) :
    (line = EXIT ∧ process_command sys line paths = Outcome.exited 0)
    ∨ ∃ tr, process_command sys line paths = Outcome.returned paths tr := by
  unfold process_command
  by_cases h0 : line = ""
  · exact Or.inr ⟨[], by rw [if_pos h0]⟩
  by_cases h1 : line = EXIT
  · exact Or.inl ⟨h1, by rw [if_neg h0, if_pos h1]⟩
  right
  rw [if_neg h0, if_neg h1]
  have hp := dispatch_paths_frame sys (parseParallel line) h ⟨paths, [], []⟩
  rcases hd : dispatch sys (parseParallel line) ⟨paths, [], []⟩ with ⟨st, flag⟩
  rw [hd] at hp
  simp only at hp
  cases flag
  · exact ⟨st.trace ++ st.childPid.map Event.waitpid, by simp only [hp]⟩
  · exact ⟨st.trace, by simp only [hp]⟩

/-- C20, at the line `ls & cd & path /usr`, whose `path` command is never reached. -/
theorem process_command_path_frame_witness :
    ("ls & cd & path /usr" = EXIT
      ∧ process_command sysOk "ls & cd & path /usr" ["/bin"] = Outcome.exited 0)
    ∨ ∃ tr, process_command sysOk "ls & cd & path /usr" ["/bin"]
        = Outcome.returned ["/bin"] tr :=
  process_command_path_frame sysOk "ls & cd & path /usr" ["/bin"] (by
    intro pre c post hsplit hc
    have hparse : parseParallel "ls & cd & path /usr"
        = [⟨["ls"], "", false⟩, ⟨["cd"], "", false⟩, ⟨["path", "/usr"], "", false⟩] := by
      decide
    rw [hparse] at hsplit
    match pre, hsplit with
    | [], hs =>
      have := (List.cons.inj hs).1
      subst this
      exact absurd hc (by decide)
    | [_], hs =>
      have := (List.cons.inj (List.cons.inj hs).2).1
      subst this
      exact absurd hc (by decide)
    | [_, d], hs =>
      have hd := (List.cons.inj (List.cons.inj hs).2).1
      exact ⟨d, by simp, by rw [← hd]; decide⟩
    | _ :: _ :: _ :: _ :: _, hs =>
      have := congrArg List.length hs
      simp at this
    | [_, _, _], hs =>
      have := congrArg List.length hs
      simp at this)

end Wish
